import Mathlib

/-!
Verification development for the in-memory profile time-series engine
(`pkg/storage/series_iterator.go` and the series-tree / truncation layer).

The Go code is shallowly embedded: pure functions become Lean functions,
stateful iterators become explicit state passing, machine integers become
`Nat`/`Int` (the code never overflows the 64-bit counters in the scenarios
considered), and fallible operations return `Option`/`Except`.
-/

/-! # The values-iterator model

`MemSeriesValuesIterator` is an interface in the source (`Next`, `At`,
`Err`, `Read`).  We model an arbitrary implementation as a sequence of
step results that successive `Next()` calls observe, together with the
currently observable step (what `At`, `Err`, `Read` report).  A concrete
`MultiChunkIterator` over a fixed list of values is a particular sequence
of steps (built by `chunkSteps` below). -/

/-- One observable state of a values iterator: whether the `Next()` call
that produced it returned true, and what `At`, `Err` and `Read` report
afterwards. -/

structure IterStep where
  ok : Bool
  atv : Int
  err : Option String
  read : Nat
deriving DecidableEq

/-- Model of the `MemSeriesValuesIterator` interface: the pending step
results that future `Next()` calls will observe, and the current
observable state. -/

structure MemSeriesValuesIterator where
  pending : List IterStep
  cur : IterStep
deriving DecidableEq

namespace MemSeriesValuesIterator

/-- `Next()`: consume one pending step; with no steps left it returns
false and leaves the observable state unchanged. -/
def next : MemSeriesValuesIterator → Bool × MemSeriesValuesIterator
  | ⟨[], cur⟩ => (false, ⟨[], cur⟩)
  | ⟨s :: rest, _⟩ => (s.ok, ⟨rest, s⟩)

/-- `At()`. -/
def At (it : MemSeriesValuesIterator) : Int := it.cur.atv

/-- `Err()`. -/
def Err (it : MemSeriesValuesIterator) : Option String := it.cur.err

/-- `Read()`. -/
def Read (it : MemSeriesValuesIterator) : Nat := it.cur.read

end MemSeriesValuesIterator

/-- Steps of an honest iterator over the values `vals`, as produced by a
`MultiChunkIterator` whose `Read()` counter has already reached `k`:
every `Next()` succeeds with no error and the counter advances by exactly
one per call. -/

def chunkSteps (k : Nat) : List Int → List IterStep
  | [] => []
  | v :: vs => ⟨true, v, none, k + 1⟩ :: chunkSteps (k + 1) vs

/-- Modelled from the spec: (§4.1) `NewMultiChunkIterator` over a list of
chunks yields the concatenated sequence of values across chunks, with a
fresh `Read()` counter starting at 0.  (The chunk codec itself is not in
the sources; by the spec's round-trip property a chunk is observationally
its decoded `int64` values.) -/

def NewMultiChunkIterator (chunks : List (List Int)) : MemSeriesValuesIterator :=
  ⟨chunkSteps 0 chunks.flatten, ⟨true, 0, none, 0⟩⟩

/-! # The iterator tree -/

/-- `MemSeriesIteratorTreeValueNode`: a value iterator plus the label
payload captured at snapshot time. -/

structure MemSeriesIteratorTreeValueNode where
  Values : MemSeriesValuesIterator
  Label : List (String × List String)
  NumLabel : List (String × List Int)
  NumUnit : List (String × List String)
deriving DecidableEq

/-- `MemSeriesIteratorTreeNode`. -/

inductive MemSeriesIteratorTreeNode where
  | mk (locationID : Nat)
       (flatValues : List MemSeriesIteratorTreeValueNode)
       (cumulativeValues : List MemSeriesIteratorTreeValueNode)
       (Children : List MemSeriesIteratorTreeNode)

namespace MemSeriesIteratorTreeNode

def locationID : MemSeriesIteratorTreeNode → Nat
  | .mk l _ _ _ => l

def flatValues : MemSeriesIteratorTreeNode → List MemSeriesIteratorTreeValueNode
  | .mk _ f _ _ => f

def cumulativeValues : MemSeriesIteratorTreeNode → List MemSeriesIteratorTreeValueNode
  | .mk _ _ c _ => c

def Children : MemSeriesIteratorTreeNode → List MemSeriesIteratorTreeNode
  | .mk _ _ _ cs => cs

end MemSeriesIteratorTreeNode

/-- `MemSeriesIteratorTree`. -/

structure MemSeriesIteratorTree where
  Roots : MemSeriesIteratorTreeNode

/-- `ProfileTreeValueNode` (only the fields the iterator produces). -/

structure ProfileTreeValueNode where
  Value : Int
  Label : List (String × List String)
  NumLabel : List (String × List Int)
  NumUnit : List (String × List String)

/-- `FlatValues()`: nil (modelled as `none`) when the node has no flat
value iterators, otherwise one entry per flat iterator reading `At()`. -/

def MemSeriesIteratorTreeNode.FlatValues (n : MemSeriesIteratorTreeNode) :
    Option (List ProfileTreeValueNode) :=
  if n.flatValues.length = 0 then none
  else some (n.flatValues.map fun v => ⟨v.Values.At, v.Label, v.NumLabel, v.NumUnit⟩)

/-- `CumulativeValues()`: nil when the node has no cumulative value
iterators, otherwise one entry per cumulative iterator. -/

def MemSeriesIteratorTreeNode.CumulativeValues (n : MemSeriesIteratorTreeNode) :
    Option (List ProfileTreeValueNode) :=
  if n.cumulativeValues.length = 0 then none
  else some (n.cumulativeValues.map fun v => ⟨v.Values.At, v.Label, v.NumLabel, v.NumUnit⟩)

/-! # Error messages (exact strings of the source) -/

/-- Error of the `!it.Next()` branches: `unexpected end of <kind> iterator`. -/

def endMsg (kind : String) : String :=
  "unexpected end of " ++ kind ++ " iterator"

/-- Error of the `it.Err() != nil` branches: `next <kind>: <err>`. -/

def wrapMsg (kind : String) (e : String) : String :=
  "next " ++ kind ++ ": " ++ e

/-- Error of the `Read()` lockstep checks:
`wrong iteration for <kind>, expected: <r>, got: <g>`. -/

def wrongMsg (kind : String) (r g : Nat) : String :=
  "wrong iteration for " ++ kind ++ ", expected: " ++ toString r ++ ", got: " ++ toString g

/-! # Advancing the iterator tree (`MemSeriesIterator.Next`, lines 179-222)

The source walks the iterator tree depth-first through
`NewMemSeriesIteratorTreeIterator`; the traversal helper itself lives in
`tree.go` (not among the sources) and is modelled from the spec: a
pre-order walk visiting every node, advancing its flat iterators, then
its cumulative iterators, then descending into the children, stopping at
the first error.  Iterators advanced before the failure keep their
advanced state (the Go code mutates them in place). -/

/-- Advance every value iterator in a list of value nodes in order,
checking for `Err()` and the `Read() == r` lockstep condition exactly as
the loop bodies at lines 184-216 do. -/

def advanceValues (kind : String) (r : Nat) :
    List MemSeriesIteratorTreeValueNode →
    List MemSeriesIteratorTreeValueNode × Option String
  | [] => ([], none)
  | v :: rest =>
    let (ok, vi) := v.Values.next
    if ok = false then
      ({ v with Values := vi } :: rest, some (endMsg kind))
    else
      match vi.Err with
      | some e => ({ v with Values := vi } :: rest, some (wrapMsg kind e))
      | none =>
        if vi.Read ≠ r then
          ({ v with Values := vi } :: rest, some (wrongMsg kind r vi.Read))
        else
          let (rest', e) := advanceValues kind r rest
          ({ v with Values := vi } :: rest', e)

mutual

/-- Advance all value iterators of one node (flat values first, then
cumulative values, then the children, as in the depth-first walk). -/
def advanceTreeNode (r : Nat) :
    MemSeriesIteratorTreeNode → MemSeriesIteratorTreeNode × Option String
  | .mk loc fv cv cs =>
    let (fv', e1) := advanceValues "flat value" r fv
    match e1 with
    | some e => (.mk loc fv' cv cs, some e)
    | none =>
      let (cv', e2) := advanceValues "cumulative value" r cv
      match e2 with
      | some e => (.mk loc fv' cv' cs, some e)
      | none =>
        let (cs', e3) := advanceTreeChildren r cs
        (.mk loc fv' cv' cs', e3)

/-- Advance a forest of nodes left to right, stopping at the first error. -/
def advanceTreeChildren (r : Nat) :
    List MemSeriesIteratorTreeNode → List MemSeriesIteratorTreeNode × Option String
  | [] => ([], none)
  | c :: rest =>
    let (c', e) := advanceTreeNode r c
    match e with
    | some m => (c' :: rest, some m)
    | none =>
      let (rest', e') := advanceTreeChildren r rest
      (c' :: rest', e')

end

/-! # `MemSeriesIterator` and `Next()` -/

/-- The `MemSeriesIterator` state (the `series` back pointer is dropped:
`Next` only reads the iterator's own snapshot fields). -/

structure MemSeriesIterator where
  tree : MemSeriesIteratorTree
  timestampsIterator : MemSeriesValuesIterator
  durationsIterator : MemSeriesValuesIterator
  periodsIterator : MemSeriesValuesIterator
  err : Option String
  numSamples : Nat

/-- Advance the three dense iterators (lines 138-177): `Next`/`Err`
checks for timestamps, durations and periods, then the two `Read()`
lockstep checks against the timestamps counter.  Returns the advanced
iterators (later ones untouched when an earlier one fails) and either the
error or the authoritative counter `r`. -/

def advanceDense (ts ds ps : MemSeriesValuesIterator) :
    MemSeriesValuesIterator × MemSeriesValuesIterator × MemSeriesValuesIterator ×
      Except String Nat :=
  let (ok1, ts') := ts.next
  if ok1 = false then (ts', ds, ps, .error (endMsg "timestamps"))
  else
    match ts'.Err with
    | some e => (ts', ds, ps, .error (wrapMsg "timestamp" e))
    | none =>
      let (ok2, ds') := ds.next
      if ok2 = false then (ts', ds', ps, .error (endMsg "durations"))
      else
        match ds'.Err with
        | some e => (ts', ds', ps, .error (wrapMsg "duration" e))
        | none =>
          let (ok3, ps') := ps.next
          if ok3 = false then (ts', ds', ps', .error (endMsg "periods"))
          else
            match ps'.Err with
            | some e => (ts', ds', ps', .error (wrapMsg "period" e))
            | none =>
              let r := ts'.Read
              if ds'.Read ≠ r then
                (ts', ds', ps', .error (wrongMsg "duration" r ds'.Read))
              else if ps'.Read ≠ r then
                (ts', ds', ps', .error (wrongMsg "periods" r ps'.Read))
              else (ts', ds', ps', .ok r)

/-- `MemSeriesIterator.Next()` (lines 130-226).  Returns the boolean
result and the updated iterator state. -/

def MemSeriesIterator.Next (it : MemSeriesIterator) : Bool × MemSeriesIterator :=
  if it.numSamples = 0 then (false, it)
  else
    match advanceDense it.timestampsIterator it.durationsIterator it.periodsIterator with
    | (ts', ds', ps', .error e) =>
      (false, { it with timestampsIterator := ts', durationsIterator := ds',
                        periodsIterator := ps', err := some e })
    | (ts', ds', ps', .ok r) =>
      match advanceTreeNode r it.tree.Roots with
      | (root', some e) =>
        (false, { it with timestampsIterator := ts', durationsIterator := ds',
                          periodsIterator := ps', tree := ⟨root'⟩, err := some e })
      | (root', none) =>
        (true, { it with timestampsIterator := ts', durationsIterator := ds',
                         periodsIterator := ps', tree := ⟨root'⟩,
                         numSamples := it.numSamples - 1 })

/-- `MemSeriesIterator.Err()` (lines 363-365). -/

def MemSeriesIterator.Err (it : MemSeriesIterator) : Option String := it.err

/-- Run `m` consecutive `Next()` calls, collecting the boolean results. -/

def runNext : Nat → MemSeriesIterator → List Bool × MemSeriesIterator
  | 0, it => ([], it)
  | m + 1, it =>
    let (b, it') := it.Next
    let (bs, it'') := runNext m it'
    (b :: bs, it'')

/-! # Observable one-step predicates on value iterators -/

/-- The next `Next()` call will return true. -/

def advancesB (vi : MemSeriesValuesIterator) : Bool := (vi.next).1

/-- The next `Next()` call will return true with no error reported. -/

def cleanB (vi : MemSeriesValuesIterator) : Bool :=
  (vi.next).1 && ((vi.next).2.Err).isNone

/-- The `Read()` value observable after the next `Next()` call. -/

def nextRead (vi : MemSeriesValuesIterator) : Nat := ((vi.next).2).Read

/-- The next `Next()` call advances cleanly and lands on counter `r`. -/

def goodB (r : Nat) (vi : MemSeriesValuesIterator) : Bool :=
  cleanB vi && (nextRead vi == r)

/-- The next `Next()` call fails to advance (the iterator ended). -/

def endedB (vi : MemSeriesValuesIterator) : Bool := !(vi.next).1

mutual

/-- All value iterators of a node's subtree, in walk order, tagged
`true` for flat and `false` for cumulative. -/
def treeNodeIters : MemSeriesIteratorTreeNode → List (Bool × MemSeriesValuesIterator)
  | .mk _ fv cv cs =>
    fv.map (fun v => (true, v.Values)) ++ cv.map (fun v => (false, v.Values)) ++
      treeChildrenIters cs

def treeChildrenIters : List MemSeriesIteratorTreeNode → List (Bool × MemSeriesValuesIterator)
  | [] => []
  | c :: rest => treeNodeIters c ++ treeChildrenIters rest

end

/-- Every value iterator in the tree advances cleanly on its next call. -/

def treeAllClean (n : MemSeriesIteratorTreeNode) : Bool :=
  (treeNodeIters n).all (fun p => cleanB p.2)

/-- Every value iterator in the tree advances cleanly onto counter `r`. -/

def treeAllGood (r : Nat) (n : MemSeriesIteratorTreeNode) : Bool :=
  (treeNodeIters n).all (fun p => goodB r p.2)

/-- Some value iterator in the tree fails to advance. -/

def treeAnyEnded (n : MemSeriesIteratorTreeNode) : Bool :=
  (treeNodeIters n).any (fun p => endedB p.2)

/-- Some value iterator in the tree lands on a counter different from `r`. -/

def treeAnyMismatch (r : Nat) (n : MemSeriesIteratorTreeNode) : Bool :=
  (treeNodeIters n).any (fun p => nextRead p.2 != r)

/-- Every value iterator either advances cleanly onto `r` or ends. -/

def treeAllGoodOrEnded (r : Nat) (n : MemSeriesIteratorTreeNode) : Bool :=
  (treeNodeIters n).all (fun p => goodB r p.2 || endedB p.2)

/-! # Shapes of the iterator-tree walk errors -/

/-- The error is a `Read()` lockstep error naming an offending value
column of the tree. -/

def wrongShape (r : Nat) (e : String) : Prop :=
  ∃ k g, (k = "flat value" ∨ k = "cumulative value") ∧ g ≠ r ∧ e = wrongMsg k r g

/-- The error is an unexpected-end error naming a value column of the tree. -/

def endShape (e : String) : Prop :=
  e = endMsg "flat value" ∨ e = endMsg "cumulative value"

/-- The error is one of the three kinds that `Next()` records: a column
ended early, a column iterator reported an error, or a `Read()` lockstep
check failed. -/

def iterErrShape (e : String) : Prop :=
  (∃ k, e = endMsg k) ∨ (∃ k m, e = wrapMsg k m) ∨ ∃ k a b, b ≠ a ∧ e = wrongMsg k a b

/-! # A family of fully-populated iterator states

`mkGoodState k n sh` is a `MemSeriesIterator` whose dense iterators and
whose tree value iterators (one tree per shape `sh`) all hold exactly `n`
further values, with all `Read()` counters at `k`.  With `k = 0` this is
the iterator built from a series of `n` samples whose column iterators
all contain `n` values. -/

/-- Shape of an iterator tree: per node, the number of flat and
cumulative value iterators and the shapes of the children. -/

inductive TreeShape where
  | mk (nf nc : Nat) (children : List TreeShape)

/-- An honest column iterator holding `n` further values, counter at `k`. -/

def goodVI (k n : Nat) : MemSeriesValuesIterator :=
  ⟨chunkSteps k (List.replicate n 0), ⟨true, 0, none, k⟩⟩

/-- A value node with such an iterator and empty labels. -/

def goodValueNode (k n : Nat) : MemSeriesIteratorTreeValueNode :=
  ⟨goodVI k n, [], [], []⟩

mutual

def goodTreeNode (k n : Nat) : TreeShape → MemSeriesIteratorTreeNode
  | .mk nf nc ch =>
    .mk 0 (List.replicate nf (goodValueNode k n))
      (List.replicate nc (goodValueNode k n)) (goodTreeChildren k n ch)

def goodTreeChildren (k n : Nat) : List TreeShape → List MemSeriesIteratorTreeNode
  | [] => []
  | s :: rest => goodTreeNode k n s :: goodTreeChildren k n rest

end

/-- The fully-populated iterator state. -/

def mkGoodState (k n : Nat) (sh : TreeShape) : MemSeriesIterator :=
  ⟨⟨goodTreeNode k n sh⟩, goodVI k n, goodVI k n, goodVI k n, none, n⟩

/-- `Next()` never consults the stored error. -/

def MemSeriesIterator.setErr (it : MemSeriesIterator) (e : Option String) :
    MemSeriesIterator := { it with err := e }

/-- A small concrete tree shape: root with one flat and one cumulative
iterator and a single child with one flat iterator. -/

def shape0 : TreeShape := TreeShape.mk 1 1 [TreeShape.mk 1 0 []]

/-- A concrete iterator state whose durations iterator will land on
`Read() = 2` while timestamps lands on 1 (and recovers afterwards). -/

def desyncState : MemSeriesIterator :=
  ⟨⟨.mk 0 [] [] []⟩,
   ⟨[⟨true, 0, none, 1⟩, ⟨true, 0, none, 2⟩], ⟨true, 0, none, 0⟩⟩,
   ⟨[⟨true, 0, none, 2⟩, ⟨true, 0, none, 2⟩], ⟨true, 0, none, 0⟩⟩,
   ⟨[⟨true, 0, none, 2⟩, ⟨true, 0, none, 2⟩], ⟨true, 0, none, 0⟩⟩,
   none, 1⟩

/-- A concrete iterator state whose flat value iterator in the root node
has ended while every other column still has a value. -/

def endedState : MemSeriesIterator :=
  ⟨⟨.mk 0 [⟨goodVI 0 0, [], [], []⟩] [] []⟩,
   goodVI 0 1, goodVI 0 1, goodVI 0 1, none, 1⟩

/-! # `getIndexRange` (lines 302-325) -/

/-- The loop of `getIndexRange`, with the accumulators `start`, `end`
and `i` explicit.  Each round calls `it.Next()`; on false the loop exits
returning `it.Err()`; with `i = numSamples` it increments `end` and
breaks; otherwise it reads `t = it.At()`, counts `t < mint` into
`start`, counts `t ≤ maxt` into `end` and continues, or breaks. -/

def getIndexRangeLoop (it : MemSeriesValuesIterator) (numSamples : Nat)
    (mint maxt : Int) (start endv i : Nat) : Nat × Nat × Option String :=
  match h : it.next with
  | (false, it') => (start, endv, it'.Err)
  | (true, it') =>
    if i = numSamples then (start, endv + 1, it'.Err)
    else
      let t := it'.At
      let start' := if t < mint then start + 1 else start
      if t ≤ maxt then
        getIndexRangeLoop it' numSamples mint maxt start' (endv + 1) (i + 1)
      else (start', endv, it'.Err)
termination_by it.pending.length
decreasing_by
  rcases it with ⟨pending, cur⟩
  cases pending with
  | nil => simp [MemSeriesValuesIterator.next] at h
  | cons s rest =>
    simp only [MemSeriesValuesIterator.next] at h
    have : ⟨rest, s⟩ = it' := by
      have := congrArg Prod.snd h
      simpa using this
    subst this
    simp

/-- `getIndexRange` (line 302). -/

def getIndexRange (it : MemSeriesValuesIterator) (numSamples : Nat)
    (mint maxt : Int) : Nat × Nat × Option String :=
  getIndexRangeLoop it numSamples mint maxt 0 0 0

/-- Number of scanned values below `mint` (the `start` counter): the
scan stops after the first value above `maxt`, which is itself still
tested against `mint`. -/

def rangeStart (mint maxt : Int) : List Int → Nat
  | [] => 0
  | v :: vs =>
    (if v < mint then 1 else 0) + (if v ≤ maxt then rangeStart mint maxt vs else 0)

/-- Number of leading values at most `maxt` (the `end` counter). -/

def rangeEnd (maxt : Int) : List Int → Nat
  | [] => 0
  | v :: vs => if v ≤ maxt then rangeEnd maxt vs + 1 else 0

/-! # `MemSeries` and `Iterator()` (lines 47-128)

The `MemSeries` struct itself is declared outside the given sources;
its fields are modelled exactly as `Iterator()` consumes them.  The
value-key encoding (`location` joined by `|` plus the canonical label
encodings) is modelled by the location-id chain itself paired with the
label payload: the source encodings are injective, so key equality is
preserved. -/

/-- The label payload bound to a value key. -/

structure LabelPayload where
  Label : List (String × List String)
  NumLabel : List (String × List Int)
  NumUnit : List (String × List String)
deriving DecidableEq

/-- `ProfileTreeValueNodeKey`: the stack chain (leaf location first,
root last) and, for label-carrying leaves, the label payload. -/

structure ProfileTreeValueNodeKey where
  location : List Nat
  labelsEnc : Option LabelPayload
deriving DecidableEq

/-- The fixed key of the synthetic root: location `"0"`. -/

def rootKey : ProfileTreeValueNodeKey := ⟨[0], none⟩

/-- Association-list lookup (models a Go map read that may miss). -/

def assocFind {α : Type} :
    List (ProfileTreeValueNodeKey × α) → ProfileTreeValueNodeKey → Option α
  | [], _ => none
  | (k', v) :: rest, k => if k' = k then some v else assocFind rest k

/-- `MemSeriesTreeNode` of the series tree. -/

inductive MemSeriesTreeNode where
  | mk (keys : List ProfileTreeValueNodeKey) (LocationID : Nat)
       (Children : List MemSeriesTreeNode)

namespace MemSeriesTreeNode

def keys : MemSeriesTreeNode → List ProfileTreeValueNodeKey
  | .mk ks _ _ => ks

def LocationID : MemSeriesTreeNode → Nat
  | .mk _ l _ => l

def Children : MemSeriesTreeNode → List MemSeriesTreeNode
  | .mk _ _ cs => cs

end MemSeriesTreeNode

/-- The fields of `MemSeries` that `Iterator()` reads (a chunk is
modelled by its decoded values). -/

structure MemSeries where
  timestamps : List (List Int)
  durations : List (List Int)
  periods : List (List Int)
  flatValues : List (ProfileTreeValueNodeKey × List (List Int))
  cumulativeValues : List (ProfileTreeValueNodeKey × List (List Int))
  labels : List (ProfileTreeValueNodeKey × List (String × List String))
  numLabels : List (ProfileTreeValueNodeKey × List (String × List Int))
  numUnits : List (ProfileTreeValueNodeKey × List (String × List String))
  seriesTree : MemSeriesTreeNode
  numSamples : Nat

/-- The flat value-iterator nodes a series-tree node contributes (lines
93-101): one per key present in `flatValues`. -/

def buildFlat (s : MemSeries) (keys : List ProfileTreeValueNodeKey) :
    List MemSeriesIteratorTreeValueNode :=
  keys.filterMap fun key =>
    (assocFind s.flatValues key).map fun chunks =>
      ⟨NewMultiChunkIterator chunks, (assocFind s.labels key).getD [],
        (assocFind s.numLabels key).getD [], (assocFind s.numUnits key).getD []⟩

/-- The cumulative value-iterator nodes (lines 102-109). -/

def buildCum (s : MemSeries) (keys : List ProfileTreeValueNodeKey) :
    List MemSeriesIteratorTreeValueNode :=
  keys.filterMap fun key =>
    (assocFind s.cumulativeValues key).map fun chunks =>
      ⟨NewMultiChunkIterator chunks, (assocFind s.labels key).getD [],
        (assocFind s.numLabels key).getD [], (assocFind s.numUnits key).getD []⟩

mutual

/-- The iterator-tree node built for one series-tree node by the
stack-driven walk of `Iterator()` (lines 83-125), modelled recursively;
the series-tree iterator (from `tree.go`, not among the sources) is
modelled from the spec as the pre-order walk that yields the series-tree
root as the first child of the synthetic iterator root. -/
def buildIterNode (s : MemSeries) : MemSeriesTreeNode → MemSeriesIteratorTreeNode
  | .mk keys loc ch =>
    .mk loc (buildFlat s keys) (buildCum s keys) (buildIterChildren s ch)

def buildIterChildren (s : MemSeries) :
    List MemSeriesTreeNode → List MemSeriesIteratorTreeNode
  | [] => []
  | c :: rest => buildIterNode s c :: buildIterChildren s rest

end

/-- `MemSeries.Iterator()` (line 47): the synthetic root node carries no
flat values and exactly one cumulative value iterator, over the chunks
of the fixed root key `"0"` (lines 48-57). -/

def MemSeries.Iterator (s : MemSeries) : MemSeriesIterator :=
  ⟨⟨.mk 0 []
      [⟨NewMultiChunkIterator ((assocFind s.cumulativeValues rootKey).getD []),
        (assocFind s.labels rootKey).getD [],
        (assocFind s.numLabels rootKey).getD [],
        (assocFind s.numUnits rootKey).getD []⟩]
      [buildIterNode s s.seriesTree]⟩,
    NewMultiChunkIterator s.timestamps,
    NewMultiChunkIterator s.durations,
    NewMultiChunkIterator s.periods,
    none, s.numSamples⟩

/-! # The series tree and the value columns (spec-modelled)

`ProfileTree.Insert` and `MemSeriesTree.Insert` live in files outside
the given sources (only their tests are present); they are modelled from
the spec, §4.2-§4.3: inserting a sample creates the stack's path in the
profile tree and attaches the flat value (with optional label payload)
to the leaf; merging a profile tree into the series at a sample index
writes, for every visited node, its flat value(s) under the node's value
key(s) into the flat columns, its cumulative value under its key(s) into
the cumulative columns, and binds the label payload to label-carrying
keys on first observation. -/

/-- A profile-tree node: location id, flat value entries (value plus
optional label payload — one entry per distinct payload), children. -/

inductive ProfileTreeNode where
  | mk (loc : Nat) (flat : List (Int × Option LabelPayload))
       (children : List ProfileTreeNode)

def ProfileTreeNode.loc : ProfileTreeNode → Nat
  | .mk l _ _ => l

/-- `NewProfileTree()`: the synthetic root, location id 0. -/

def NewProfileTree : ProfileTreeNode := .mk 0 [] []

/-- Modelled from the spec: (§4.2) `ProfileTree.Insert` walks the path
from the root (stack reversed), finding or creating children by
location id (insertion order kept), and appends the flat value entry at
the leaf. -/

def insertPath (v : Int) (l : Option LabelPayload) :
    List Nat → ProfileTreeNode → ProfileTreeNode
  | [], .mk loc flat ch => .mk loc (flat ++ [(v, l)]) ch
  | loc' :: rest, .mk loc flat ch =>
    if ch.any (fun c => c.loc == loc') then
      .mk loc flat (ch.map fun c => if c.loc == loc' then insertPath v l rest c else c)
    else
      .mk loc flat (ch ++ [insertPath v l rest (.mk loc' [] [])])

/-- Insert `makeSample(v, stack)` (stack listed leaf first, as in the
source tests). -/

def insertSample (t : ProfileTreeNode) (v : Int) (stack : List Nat)
    (l : Option LabelPayload) : ProfileTreeNode :=
  insertPath v l stack.reverse t

/-- Sum of the flat value entries of one node. -/

def flatSum (flat : List (Int × Option LabelPayload)) : Int :=
  (flat.map Prod.fst).sum

mutual

/-- Cumulative value of a node: own flat values plus children's
cumulative values (spec §3). -/
def cumNode : ProfileTreeNode → Int
  | .mk _ flat ch => flatSum flat + cumChildren ch

def cumChildren : List ProfileTreeNode → Int
  | [] => 0
  | c :: rest => cumNode c + cumChildren rest

end

/-- The column writes contributed by one node itself: each flat entry
writes its value under the key `(chain, payload)`; a node without flat
entries contributes (to the cumulative family only) its cumulative
value under the chain-only key. -/

def nodeOwnWrites (useCum : Bool) (path : List Nat) (n : ProfileTreeNode) :
    List (ProfileTreeValueNodeKey × Int) :=
  match n with
  | .mk loc flat _ =>
    if flat.isEmpty then
      if useCum then [(⟨loc :: path, none⟩, cumNode n)] else []
    else flat.map fun p => (⟨loc :: path, p.2⟩, p.1)

mutual

/-- All writes of one family (`useCum = false`: flat columns,
`useCum = true`: cumulative columns) produced by merging the subtree at
`n`, whose parent chain is `path`, in depth-first order. -/
def treeWrites (useCum : Bool) (path : List Nat) :
    ProfileTreeNode → List (ProfileTreeValueNodeKey × Int)
  | .mk loc flat ch =>
    nodeOwnWrites useCum path (.mk loc flat ch) ++
      treeWritesChildren useCum (loc :: path) ch

def treeWritesChildren (useCum : Bool) (path : List Nat) :
    List ProfileTreeNode → List (ProfileTreeValueNodeKey × Int)
  | [] => []
  | c :: rest => treeWrites useCum path c ++ treeWritesChildren useCum path rest

end

mutual

/-- The label bindings produced by merging the subtree at `n`: one per
label-carrying flat entry, under its label-discriminated key. -/
def labelWrites (path : List Nat) :
    ProfileTreeNode → List (ProfileTreeValueNodeKey × LabelPayload)
  | .mk loc flat ch =>
    (flat.filterMap fun p =>
      p.2.map fun pl => (⟨loc :: path, p.2⟩, pl)) ++
      labelWritesChildren (loc :: path) ch

def labelWritesChildren (path : List Nat) :
    List ProfileTreeNode → List (ProfileTreeValueNodeKey × LabelPayload)
  | [] => []
  | c :: rest => labelWrites path c ++ labelWritesChildren path rest

end

/-- Read a column (missing key: the empty column). -/

def getCol (m : List (ProfileTreeValueNodeKey × List Int))
    (k : ProfileTreeValueNodeKey) : List Int :=
  (assocFind m k).getD []

/-- Append one value to the column of `k` (allocating the column on
first write). -/

def appendCol : List (ProfileTreeValueNodeKey × List Int) →
    ProfileTreeValueNodeKey → Int → List (ProfileTreeValueNodeKey × List Int)
  | [], k, v => [(k, [v])]
  | (k', vs) :: rest, k, v =>
    if k' = k then (k', vs ++ [v]) :: rest else (k', vs) :: appendCol rest k v

/-- Apply a list of writes in order. -/

def applyWrites (m : List (ProfileTreeValueNodeKey × List Int)) :
    List (ProfileTreeValueNodeKey × Int) → List (ProfileTreeValueNodeKey × List Int)
  | [] => m
  | (k, v) :: rest => applyWrites (appendCol m k v) rest

/-- Bind a label payload to a key on first observation. -/

def putLabel : List (ProfileTreeValueNodeKey × LabelPayload) →
    ProfileTreeValueNodeKey → LabelPayload →
    List (ProfileTreeValueNodeKey × LabelPayload)
  | [], k, p => [(k, p)]
  | (k', p') :: rest, k, p =>
    if k' = k then (k', p') :: rest else (k', p') :: putLabel rest k p

def applyLabelWrites (m : List (ProfileTreeValueNodeKey × LabelPayload)) :
    List (ProfileTreeValueNodeKey × LabelPayload) →
    List (ProfileTreeValueNodeKey × LabelPayload)
  | [] => m
  | (k, p) :: rest => applyLabelWrites (putLabel m k p) rest

/-- The column state of a series (flat columns, cumulative columns,
label map); a column is its decoded value sequence. -/

structure MemSeriesCols where
  flatValues : List (ProfileTreeValueNodeKey × List Int)
  cumulativeValues : List (ProfileTreeValueNodeKey × List Int)
  labels : List (ProfileTreeValueNodeKey × LabelPayload)

def emptySeriesCols : MemSeriesCols := ⟨[], [], []⟩

/-- Modelled from the spec: (§4.3) `MemSeriesTree.Insert(sampleIndex,
pt)` applies, in depth-first order, every flat write, every cumulative
write and every label binding produced by the profile tree. -/

def seriesTreeInsert (s : MemSeriesCols) (p : ProfileTreeNode) : MemSeriesCols :=
  ⟨applyWrites s.flatValues (treeWrites false [] p),
   applyWrites s.cumulativeValues (treeWrites true [] p),
   applyLabelWrites s.labels (labelWrites [] p)⟩

/-- Append a sequence of profile trees at sample indices `0, 1, …`. -/

def insertAll (ps : List ProfileTreeNode) : MemSeriesCols :=
  ps.foldl seriesTreeInsert emptySeriesCols

/-- The values that merging `p` writes to the flat column of `k`. -/

def flatTouched (p : ProfileTreeNode) (k : ProfileTreeValueNodeKey) : List Int :=
  (treeWrites false [] p).filterMap fun q => if q.1 = k then some q.2 else none

/-- The values that merging `p` writes to the cumulative column of `k`. -/

def cumTouched (p : ProfileTreeNode) (k : ProfileTreeValueNodeKey) : List Int :=
  (treeWrites true [] p).filterMap fun q => if q.1 = k then some q.2 else none

/-- No duplicates, as a boolean. -/

def nodupB {α : Type} [DecidableEq α] : List α → Bool
  | [] => true
  | x :: xs => decide (x ∉ xs) && nodupB xs

mutual

/-- Well-formed profile tree: within one node the flat entries carry
distinct label payloads and the children carry distinct location ids
(the source's `ProfileTree.Insert` merges by key and by location id, so
only such trees arise). -/
def wfNode : ProfileTreeNode → Bool
  | .mk _ flat ch =>
    nodupB (flat.map Prod.snd) && nodupB (ch.map ProfileTreeNode.loc) &&
      wfChildren ch

def wfChildren : List ProfileTreeNode → Bool
  | [] => true
  | c :: rest => wfNode c && wfChildren rest

end

/-! # Truncation (spec-modelled, §4.5)

`truncateChunksBefore` lives outside the given sources (only its test is
present); it is modelled from the spec: count the leading timestamp
chunks whose last timestamp is below the cutoff, drop that many chunks
from the three dense columns, drop from every value column the leading
chunks whose covered sample-index range lies entirely below the dropped
sample count (tracked by the column's start offset), recompute `minTime`
(INT64_MIN when nothing remains) and leave `maxTime` untouched. -/

/-- `int64` minimum. -/

def int64Min : Int := -(2 ^ 63)

/-- The last (maximum) timestamp stored in a timestamp chunk. -/

def chunkMaxTime (c : List Int) : Int := (c.getLast?).getD 0

/-- Append one value to a column of chunks with capacity `cap`,
rolling a fresh chunk when the trailing chunk is full. -/

def appendChunked (cap : Nat) : List (List Int) → Int → List (List Int)
  | [], v => [[v]]
  | [c], v => if c.length = cap then [c, [v]] else [c ++ [v]]
  | c :: cs, v => c :: appendChunked cap cs v

/-- The chunk list obtained by appending `vals` in order. -/

def chunksFromValues (cap : Nat) (vals : List Int) : List (List Int) :=
  vals.foldl (appendChunked cap) []

/-- Drop the leading chunks of a value column (start offset `off`)
whose covered sample range lies entirely below sample count `m`;
returns the new start offset and the remaining chunks. -/

def truncColumn (m : Nat) : Nat → List (List Int) → Nat × List (List Int)
  | off, [] => (off, [])
  | off, c :: cs =>
    if off + c.length ≤ m then truncColumn m (off + c.length) cs
    else (off, c :: cs)

/-- The series state that truncation touches. -/

structure TruncSeries where
  timestamps : List (List Int)
  durations : List (List Int)
  periods : List (List Int)
  flatValues : List (ProfileTreeValueNodeKey × (Nat × List (List Int)))
  cumulativeValues : List (ProfileTreeValueNodeKey × (Nat × List (List Int)))
  minTime : Int
  maxTime : Int

/-- Modelled from the spec: (§4.5) `truncateChunksBefore(mint)`. -/

def truncateChunksBefore (s : TruncSeries) (mint : Int) : Nat × TruncSeries :=
  let k := (s.timestamps.takeWhile fun c => decide (chunkMaxTime c < mint)).length
  if k = 0 then (0, s)
  else
    let m := ((s.timestamps.take k).map List.length).sum
    let ts' := s.timestamps.drop k
    (k, { timestamps := ts',
          durations := s.durations.drop k,
          periods := s.periods.drop k,
          flatValues := s.flatValues.map fun p => (p.1, truncColumn m p.2.1 p.2.2),
          cumulativeValues :=
            s.cumulativeValues.map fun p => (p.1, truncColumn m p.2.1 p.2.2),
          minTime := ((ts'.head?.bind List.head?)).getD int64Min,
          maxTime := s.maxTime })

/-- The 500-sample series of the source test
`TestMemSeries_truncateChunksBefore`: timestamps `1..500` appended with
chunk capacity 120, one value key written at every sample. -/

def series500 : TruncSeries :=
  { timestamps := chunksFromValues 120 ((List.range 500).map fun j => (1 : Int) + j),
    durations := chunksFromValues 120 (List.replicate 500 0),
    periods := chunksFromValues 120 (List.replicate 500 0),
    flatValues := [(⟨[2, 1, 0], none⟩,
      (0, chunksFromValues 120 (List.replicate 500 1)))],
    cumulativeValues := [(⟨[0], none⟩,
      (0, chunksFromValues 120 (List.replicate 500 1)))],
    minTime := 1,
    maxTime := 500 }

/-! # Concrete scenario of `TestMemSeriesTree` -/

def payload0 : LabelPayload :=
  ⟨[("foo", ["bar", "baz"])], [("foo", [1, 2])], [("foo", ["bytes", "objects"])]⟩

def k0 : ProfileTreeValueNodeKey := ⟨[0], none⟩

def k1 : ProfileTreeValueNodeKey := ⟨[1, 0], none⟩

def k2 : ProfileTreeValueNodeKey := ⟨[2, 1, 0], none⟩

def k4 : ProfileTreeValueNodeKey := ⟨[4, 1, 0], some payload0⟩

/-- `pt1` of the test: `s11 = makeSample(1, [2,1])` and
`s12 = makeSample(2, [4,1])` with the string/num labels, inserted into a
fresh profile tree. -/

def pt1 : ProfileTreeNode :=
  insertSample (insertSample NewProfileTree 1 [2, 1] none) 2 [4, 1] (some payload0)

/-- The series columns after `seriesTree.Insert(0, pt1)` on a fresh series. -/

def s0c4 : MemSeriesCols := seriesTreeInsert emptySeriesCols pt1

/-! # Lemmas about `advanceValues` -/

theorem advanceValues_length (kind : String) (r : Nat)
    (l : List MemSeriesIteratorTreeValueNode) :
    (advanceValues kind r l).1.length = l.length := by
  induction l with
  | nil => rfl
  | cons v rest ih =>
    simp only [advanceValues]
    rcases hv : v.Values.next with ⟨ok, vi⟩
    cases ok with
    | false => simp
    | true =>
      cases hE : vi.Err with
      | some e => simp
      | none =>
        by_cases hR : vi.Read = r
        · simp [hR, ih]
        · simp [hR]

theorem advanceValues_none_good (kind : String) (r : Nat)
    (l : List MemSeriesIteratorTreeValueNode)
    (h : (advanceValues kind r l).2 = none) :
    ∀ v ∈ l, goodB r v.Values = true := by
  induction l with
  | nil => intro v hv; simp at hv
  | cons v rest ih =>
    intro w hw
    simp only [advanceValues] at h
    rcases hv : v.Values.next with ⟨ok, vi⟩
    rw [hv] at h
    cases ok with
    | false => simp at h
    | true =>
      cases hE : vi.Err with
      | some e => rw [hE] at h; simp at h
      | none =>
        rw [hE] at h
        by_cases hR : vi.Read = r
        · rcases ha : advanceValues kind r rest with ⟨rest2, e2⟩
          simp [hR, ha] at h
          rcases List.mem_cons.mp hw with hw | hw
          · subst hw
            simp only [goodB, cleanB, nextRead, hv, MemSeriesValuesIterator.Err,
              MemSeriesValuesIterator.Read]
            simp [show vi.cur.err = none from hE, show vi.cur.read = r from hR]
          · exact ih (by simp [ha, h]) w hw
        · simp [hR] at h

theorem advanceValues_clean_shape (kind : String) (r : Nat)
    (l : List MemSeriesIteratorTreeValueNode)
    (hc : ∀ v ∈ l, cleanB v.Values = true) :
    (advanceValues kind r l).2 = none ∨
      ∃ g, g ≠ r ∧ (advanceValues kind r l).2 = some (wrongMsg kind r g) := by
  induction l with
  | nil => left; rfl
  | cons v rest ih =>
    have hcv := hc v (List.mem_cons_self v rest)
    rcases hv : v.Values.next with ⟨ok, vi⟩
    simp only [cleanB, hv] at hcv
    obtain ⟨hok, hE⟩ := Bool.and_eq_true_iff.mp hcv
    subst hok
    have hE' : vi.Err = none := Option.isNone_iff_eq_none.mp hE
    by_cases hR : vi.Read = r
    · rcases ih (fun w hw => hc w (List.mem_cons_of_mem v hw)) with h | ⟨g, hg, h⟩
      · left
        rcases ha : advanceValues kind r rest with ⟨rest2, e2⟩
        rw [ha] at h
        simp [advanceValues, hv, hE', hR, ha, h]
      · right
        refine ⟨g, hg, ?_⟩
        rcases ha : advanceValues kind r rest with ⟨rest2, e2⟩
        rw [ha] at h
        simp [advanceValues, hv, hE', hR, ha, h]
    · right
      exact ⟨vi.Read, hR, by simp [advanceValues, hv, hE', hR]⟩

theorem advanceValues_goodOrEnd_shape (kind : String) (r : Nat)
    (l : List MemSeriesIteratorTreeValueNode)
    (hc : ∀ v ∈ l, (goodB r v.Values || endedB v.Values) = true) :
    (advanceValues kind r l).2 = none ∨
      (advanceValues kind r l).2 = some (endMsg kind) := by
  induction l with
  | nil => left; rfl
  | cons v rest ih =>
    have hcv := hc v (List.mem_cons_self v rest)
    rcases hv : v.Values.next with ⟨ok, vi⟩
    cases ok with
    | false =>
      right
      simp [advanceValues, hv]
    | true =>
      simp only [goodB, cleanB, endedB, nextRead, hv, Bool.not_true, Bool.or_false] at hcv
      simp at hcv
      obtain ⟨hE', hR'⟩ := hcv
      rcases ih (fun w hw => hc w (List.mem_cons_of_mem v hw)) with h | h <;>
        [left; right] <;>
        · rcases ha : advanceValues kind r rest with ⟨rest2, e2⟩
          rw [ha] at h
          simp [advanceValues, hv, hE', hR', ha, h]

theorem advanceValues_err_shape (kind : String) (r : Nat)
    (l : List MemSeriesIteratorTreeValueNode) (e : String)
    (h : (advanceValues kind r l).2 = some e) :
    e = endMsg kind ∨ (∃ m, e = wrapMsg kind m) ∨
      ∃ g, g ≠ r ∧ e = wrongMsg kind r g := by
  induction l with
  | nil => simp [advanceValues] at h
  | cons v rest ih =>
    simp only [advanceValues] at h
    rcases hv : v.Values.next with ⟨ok, vi⟩
    rw [hv] at h
    cases ok with
    | false =>
      left
      simp at h
      exact h.symm
    | true =>
      cases hE : vi.Err with
      | some m =>
        right; left
        rw [hE] at h
        simp at h
        exact ⟨m, h.symm⟩
      | none =>
        rw [hE] at h
        by_cases hR : vi.Read = r
        · rcases ha : advanceValues kind r rest with ⟨rest2, e2⟩
          simp [hR, ha] at h
          exact ih (by simp [ha, h])
        · right; right
          refine ⟨vi.Read, hR, ?_⟩
          simp [hR] at h
          exact h.symm

mutual

theorem advanceTreeNode_none_good (r : Nat) (n : MemSeriesIteratorTreeNode)
    (h : (advanceTreeNode r n).2 = none) :
    ∀ p ∈ treeNodeIters n, goodB r p.2 = true := by
  match n with
  | .mk loc fv cv cs =>
    simp only [advanceTreeNode] at h
    rcases h1 : advanceValues "flat value" r fv with ⟨fv', e1⟩
    rw [h1] at h
    cases e1 with
    | some e => simp at h
    | none =>
      rcases h2 : advanceValues "cumulative value" r cv with ⟨cv', e2⟩
      rw [h2] at h
      cases e2 with
      | some e => simp at h
      | none =>
        rcases h3 : advanceTreeChildren r cs with ⟨cs', e3⟩
        rw [h3] at h
        simp only at h
        intro p hp
        simp only [treeNodeIters, List.mem_append, List.mem_map] at hp
        rcases hp with (⟨v, hv, rfl⟩ | ⟨v, hv, rfl⟩) | hp
        · exact advanceValues_none_good _ r fv (by rw [h1]) v hv
        · exact advanceValues_none_good _ r cv (by rw [h2]) v hv
        · exact advanceTreeChildren_none_good r cs (by rw [h3]; exact h) p hp

theorem advanceTreeChildren_none_good (r : Nat)
    (cs : List MemSeriesIteratorTreeNode)
    (h : (advanceTreeChildren r cs).2 = none) :
    ∀ p ∈ treeChildrenIters cs, goodB r p.2 = true := by
  match cs with
  | [] => intro p hp; simp [treeChildrenIters] at hp
  | c :: rest =>
    simp only [advanceTreeChildren] at h
    rcases hc : advanceTreeNode r c with ⟨c', e⟩
    rw [hc] at h
    cases e with
    | some m => simp at h
    | none =>
      rcases hr : advanceTreeChildren r rest with ⟨rest', e'⟩
      rw [hr] at h
      simp only at h
      intro p hp
      simp only [treeChildrenIters, List.mem_append] at hp
      rcases hp with hp | hp
      · exact advanceTreeNode_none_good r c (by rw [hc]) p hp
      · exact advanceTreeChildren_none_good r rest (by rw [hr]; exact h) p hp

end

mutual

theorem advanceTreeNode_clean_shape (r : Nat) (n : MemSeriesIteratorTreeNode)
    (hc : ∀ p ∈ treeNodeIters n, cleanB p.2 = true) :
    (advanceTreeNode r n).2 = none ∨
      ∃ e, (advanceTreeNode r n).2 = some e ∧ wrongShape r e := by
  match n with
  | .mk loc fv cv cs =>
    have hcf : ∀ v ∈ fv, cleanB v.Values = true := by
      intro v hv
      exact hc (true, v.Values) (by
        simp only [treeNodeIters, List.mem_append, List.mem_map]
        exact Or.inl (Or.inl ⟨v, hv, rfl⟩))
    have hcc : ∀ v ∈ cv, cleanB v.Values = true := by
      intro v hv
      exact hc (false, v.Values) (by
        simp only [treeNodeIters, List.mem_append, List.mem_map]
        exact Or.inl (Or.inr ⟨v, hv, rfl⟩))
    have hcs : ∀ p ∈ treeChildrenIters cs, cleanB p.2 = true := by
      intro p hp
      exact hc p (by
        simp only [treeNodeIters, List.mem_append]
        exact Or.inr hp)
    rcases h1 : advanceValues "flat value" r fv with ⟨fv', e1⟩
    rcases advanceValues_clean_shape "flat value" r fv hcf with hn | ⟨g, hg, hsome⟩
    · rw [h1] at hn
      simp only at hn
      subst hn
      rcases h2 : advanceValues "cumulative value" r cv with ⟨cv', e2⟩
      rcases advanceValues_clean_shape "cumulative value" r cv hcc with hn | ⟨g, hg, hsome⟩
      · rw [h2] at hn
        simp only at hn
        subst hn
        rcases h3 : advanceTreeChildren r cs with ⟨cs', e3⟩
        rcases advanceTreeChildren_clean_shape r cs hcs with hn | ⟨e, hsome, hw⟩
        · rw [h3] at hn
          simp only at hn
          subst hn
          left
          simp [advanceTreeNode, h1, h2, h3]
        · rw [h3] at hsome
          simp only at hsome
          subst hsome
          right
          exact ⟨e, by simp [advanceTreeNode, h1, h2, h3], hw⟩
      · rw [h2] at hsome
        simp only at hsome
        subst hsome
        right
        exact ⟨_, by simp [advanceTreeNode, h1, h2],
          ⟨"cumulative value", g, Or.inr rfl, hg, rfl⟩⟩
    · rw [h1] at hsome
      simp only at hsome
      subst hsome
      right
      exact ⟨_, by simp [advanceTreeNode, h1],
        ⟨"flat value", g, Or.inl rfl, hg, rfl⟩⟩

theorem advanceTreeChildren_clean_shape (r : Nat)
    (cs : List MemSeriesIteratorTreeNode)
    (hc : ∀ p ∈ treeChildrenIters cs, cleanB p.2 = true) :
    (advanceTreeChildren r cs).2 = none ∨
      ∃ e, (advanceTreeChildren r cs).2 = some e ∧ wrongShape r e := by
  match cs with
  | [] => left; rfl
  | c :: rest =>
    have hcn : ∀ p ∈ treeNodeIters c, cleanB p.2 = true := by
      intro p hp
      exact hc p (by
        simp only [treeChildrenIters, List.mem_append]
        exact Or.inl hp)
    have hcr : ∀ p ∈ treeChildrenIters rest, cleanB p.2 = true := by
      intro p hp
      exact hc p (by
        simp only [treeChildrenIters, List.mem_append]
        exact Or.inr hp)
    rcases h1 : advanceTreeNode r c with ⟨c', e1⟩
    rcases advanceTreeNode_clean_shape r c hcn with hn | ⟨e, hsome, hw⟩
    · rw [h1] at hn
      simp only at hn
      subst hn
      rcases h2 : advanceTreeChildren r rest with ⟨rest', e2⟩
      rcases advanceTreeChildren_clean_shape r rest hcr with hn | ⟨e, hsome, hw⟩
      · rw [h2] at hn
        simp only at hn
        subst hn
        left
        simp [advanceTreeChildren, h1, h2]
      · rw [h2] at hsome
        simp only at hsome
        subst hsome
        right
        exact ⟨e, by simp [advanceTreeChildren, h1, h2], hw⟩
    · rw [h1] at hsome
      simp only at hsome
      subst hsome
      right
      exact ⟨e, by simp [advanceTreeChildren, h1], hw⟩

end

mutual

theorem advanceTreeNode_goodOrEnd_shape (r : Nat) (n : MemSeriesIteratorTreeNode)
    (hc : ∀ p ∈ treeNodeIters n, (goodB r p.2 || endedB p.2) = true) :
    (advanceTreeNode r n).2 = none ∨
      ∃ e, (advanceTreeNode r n).2 = some e ∧ endShape e := by
  match n with
  | .mk loc fv cv cs =>
    have hcf : ∀ v ∈ fv, (goodB r v.Values || endedB v.Values) = true := by
      intro v hv
      exact hc (true, v.Values) (by
        simp only [treeNodeIters, List.mem_append, List.mem_map]
        exact Or.inl (Or.inl ⟨v, hv, rfl⟩))
    have hcc : ∀ v ∈ cv, (goodB r v.Values || endedB v.Values) = true := by
      intro v hv
      exact hc (false, v.Values) (by
        simp only [treeNodeIters, List.mem_append, List.mem_map]
        exact Or.inl (Or.inr ⟨v, hv, rfl⟩))
    have hcs : ∀ p ∈ treeChildrenIters cs, (goodB r p.2 || endedB p.2) = true := by
      intro p hp
      exact hc p (by
        simp only [treeNodeIters, List.mem_append]
        exact Or.inr hp)
    rcases h1 : advanceValues "flat value" r fv with ⟨fv', e1⟩
    rcases advanceValues_goodOrEnd_shape "flat value" r fv hcf with hn | hsome
    · rw [h1] at hn
      simp only at hn
      subst hn
      rcases h2 : advanceValues "cumulative value" r cv with ⟨cv', e2⟩
      rcases advanceValues_goodOrEnd_shape "cumulative value" r cv hcc with hn | hsome
      · rw [h2] at hn
        simp only at hn
        subst hn
        rcases h3 : advanceTreeChildren r cs with ⟨cs', e3⟩
        rcases advanceTreeChildren_goodOrEnd_shape r cs hcs with hn | ⟨e, hsome, hw⟩
        · rw [h3] at hn
          simp only at hn
          subst hn
          left
          simp [advanceTreeNode, h1, h2, h3]
        · rw [h3] at hsome
          simp only at hsome
          subst hsome
          right
          exact ⟨e, by simp [advanceTreeNode, h1, h2, h3], hw⟩
      · rw [h2] at hsome
        simp only at hsome
        subst hsome
        right
        exact ⟨_, by simp [advanceTreeNode, h1, h2], Or.inr rfl⟩
    · rw [h1] at hsome
      simp only at hsome
      subst hsome
      right
      exact ⟨_, by simp [advanceTreeNode, h1], Or.inl rfl⟩

theorem advanceTreeChildren_goodOrEnd_shape (r : Nat)
    (cs : List MemSeriesIteratorTreeNode)
    (hc : ∀ p ∈ treeChildrenIters cs, (goodB r p.2 || endedB p.2) = true) :
    (advanceTreeChildren r cs).2 = none ∨
      ∃ e, (advanceTreeChildren r cs).2 = some e ∧ endShape e := by
  match cs with
  | [] => left; rfl
  | c :: rest =>
    have hcn : ∀ p ∈ treeNodeIters c, (goodB r p.2 || endedB p.2) = true := by
      intro p hp
      exact hc p (by
        simp only [treeChildrenIters, List.mem_append]
        exact Or.inl hp)
    have hcr : ∀ p ∈ treeChildrenIters rest, (goodB r p.2 || endedB p.2) = true := by
      intro p hp
      exact hc p (by
        simp only [treeChildrenIters, List.mem_append]
        exact Or.inr hp)
    rcases h1 : advanceTreeNode r c with ⟨c', e1⟩
    rcases advanceTreeNode_goodOrEnd_shape r c hcn with hn | ⟨e, hsome, hw⟩
    · rw [h1] at hn
      simp only at hn
      subst hn
      rcases h2 : advanceTreeChildren r rest with ⟨rest', e2⟩
      rcases advanceTreeChildren_goodOrEnd_shape r rest hcr with hn | ⟨e, hsome, hw⟩
      · rw [h2] at hn
        simp only at hn
        subst hn
        left
        simp [advanceTreeChildren, h1, h2]
      · rw [h2] at hsome
        simp only at hsome
        subst hsome
        right
        exact ⟨e, by simp [advanceTreeChildren, h1, h2], hw⟩
    · rw [h1] at hsome
      simp only at hsome
      subst hsome
      right
      exact ⟨e, by simp [advanceTreeChildren, h1], hw⟩

end

mutual

theorem advanceTreeNode_err_shape (r : Nat) (n : MemSeriesIteratorTreeNode)
    (e : String) (h : (advanceTreeNode r n).2 = some e) : iterErrShape e := by
  match n with
  | .mk loc fv cv cs =>
    simp only [advanceTreeNode] at h
    rcases h1 : advanceValues "flat value" r fv with ⟨fv', e1⟩
    rw [h1] at h
    cases e1 with
    | some m =>
      simp only at h
      cases h
      rcases advanceValues_err_shape "flat value" r fv _ (by rw [h1]) with hh | ⟨m2, hh⟩ | ⟨g, hg, hh⟩
      · exact Or.inl ⟨_, hh⟩
      · exact Or.inr (Or.inl ⟨_, _, hh⟩)
      · exact Or.inr (Or.inr ⟨_, _, _, hg, hh⟩)
    | none =>
      rcases h2 : advanceValues "cumulative value" r cv with ⟨cv', e2⟩
      rw [h2] at h
      cases e2 with
      | some m =>
        simp only at h
        cases h
        rcases advanceValues_err_shape "cumulative value" r cv _ (by rw [h2]) with hh | ⟨m2, hh⟩ | ⟨g, hg, hh⟩
        · exact Or.inl ⟨_, hh⟩
        · exact Or.inr (Or.inl ⟨_, _, hh⟩)
        · exact Or.inr (Or.inr ⟨_, _, _, hg, hh⟩)
      | none =>
        rcases h3 : advanceTreeChildren r cs with ⟨cs', e3⟩
        rw [h3] at h
        simp only at h
        exact advanceTreeChildren_err_shape r cs e (by rw [h3]; exact h)

theorem advanceTreeChildren_err_shape (r : Nat)
    (cs : List MemSeriesIteratorTreeNode)
    (e : String) (h : (advanceTreeChildren r cs).2 = some e) : iterErrShape e := by
  match cs with
  | [] => simp [advanceTreeChildren] at h
  | c :: rest =>
    simp only [advanceTreeChildren] at h
    rcases h1 : advanceTreeNode r c with ⟨c', e1⟩
    rw [h1] at h
    cases e1 with
    | some m =>
      simp only at h
      cases h
      exact advanceTreeNode_err_shape r c _ (by rw [h1])
    | none =>
      rcases h2 : advanceTreeChildren r rest with ⟨rest', e2⟩
      rw [h2] at h
      simp only at h
      exact advanceTreeChildren_err_shape r rest e (by rw [h2]; exact h)

end

/-! # Length preservation of the tree walk (used for the root node) -/

theorem advanceTreeNode_fst_lengths (r : Nat) (n : MemSeriesIteratorTreeNode) :
    ((advanceTreeNode r n).1).flatValues.length = n.flatValues.length ∧
      ((advanceTreeNode r n).1).cumulativeValues.length = n.cumulativeValues.length := by
  match n with
  | .mk loc fv cv cs =>
    rcases h1 : advanceValues "flat value" r fv with ⟨fv', e1⟩
    have l1 : fv'.length = fv.length := by
      have := advanceValues_length "flat value" r fv
      rw [h1] at this
      exact this
    cases e1 with
    | some e =>
      simp [advanceTreeNode, h1, MemSeriesIteratorTreeNode.flatValues,
        MemSeriesIteratorTreeNode.cumulativeValues, l1]
    | none =>
      rcases h2 : advanceValues "cumulative value" r cv with ⟨cv', e2⟩
      have l2 : cv'.length = cv.length := by
        have := advanceValues_length "cumulative value" r cv
        rw [h2] at this
        exact this
      cases e2 with
      | some e =>
        simp [advanceTreeNode, h1, h2, MemSeriesIteratorTreeNode.flatValues,
          MemSeriesIteratorTreeNode.cumulativeValues, l1, l2]
      | none =>
        rcases h3 : advanceTreeChildren r cs with ⟨cs', e3⟩
        cases e3 <;>
          simp [advanceTreeNode, h1, h2, h3, MemSeriesIteratorTreeNode.flatValues,
            MemSeriesIteratorTreeNode.cumulativeValues, l1, l2]

theorem goodVI_next (k n : Nat) :
    (goodVI k (n + 1)).next = (true, goodVI (k + 1) n) := by
  simp [goodVI, List.replicate_succ, chunkSteps, MemSeriesValuesIterator.next]

theorem goodVI_Err (k n : Nat) : (goodVI k n).Err = none := rfl

theorem goodVI_Read (k n : Nat) : (goodVI k n).Read = k := rfl

theorem advanceValues_replicate (kind : String) (k n m : Nat) :
    advanceValues kind (k + 1) (List.replicate m (goodValueNode k (n + 1))) =
      (List.replicate m (goodValueNode (k + 1) n), none) := by
  induction m with
  | zero => rfl
  | succ m ih =>
    rw [List.replicate_succ, List.replicate_succ]
    simp only [advanceValues,
      show (goodValueNode k (n + 1)).Values = goodVI k (n + 1) from rfl,
      goodVI_next, goodVI_Err, goodVI_Read,
      show { goodValueNode k (n + 1) with Values := goodVI (k + 1) n } =
        goodValueNode (k + 1) n from rfl, ih]
    simp

mutual

theorem advanceTreeNode_good (k n : Nat) (sh : TreeShape) :
    advanceTreeNode (k + 1) (goodTreeNode k (n + 1) sh) =
      (goodTreeNode (k + 1) n sh, none) := by
  match sh with
  | .mk nf nc ch =>
    simp only [goodTreeNode, advanceTreeNode, advanceValues_replicate,
      advanceTreeChildren_good k n ch]

theorem advanceTreeChildren_good (k n : Nat) (shs : List TreeShape) :
    advanceTreeChildren (k + 1) (goodTreeChildren k (n + 1) shs) =
      (goodTreeChildren (k + 1) n shs, none) := by
  match shs with
  | [] => rfl
  | s :: rest =>
    simp only [goodTreeChildren, advanceTreeChildren, advanceTreeNode_good k n s,
      advanceTreeChildren_good k n rest]

end

theorem advanceDense_good (k n : Nat) :
    advanceDense (goodVI k (n + 1)) (goodVI k (n + 1)) (goodVI k (n + 1)) =
      (goodVI (k + 1) n, goodVI (k + 1) n, goodVI (k + 1) n, .ok (k + 1)) := by
  simp only [advanceDense, goodVI_next, goodVI_Err, goodVI_Read]
  simp

theorem Next_good_succ (k n : Nat) (sh : TreeShape) :
    (mkGoodState k (n + 1) sh).Next = (true, mkGoodState (k + 1) n sh) := by
  simp [MemSeriesIterator.Next, mkGoodState, advanceDense_good, advanceTreeNode_good]

theorem Next_good_zero (k : Nat) (sh : TreeShape) :
    (mkGoodState k 0 sh).Next = (false, mkGoodState k 0 sh) := rfl

theorem runNext_good (m k n : Nat) (sh : TreeShape) :
    runNext m (mkGoodState k n sh) =
      (List.replicate (min m n) true ++ List.replicate (m - n) false,
        mkGoodState (k + min m n) (n - m) sh) := by
  induction m generalizing k n with
  | zero => simp [runNext]
  | succ m ih =>
    cases n with
    | zero =>
      simp only [runNext, Next_good_zero, ih]
      simp [List.replicate_succ]
    | succ n =>
      simp only [runNext, Next_good_succ, ih]
      rw [show min (m + 1) (n + 1) = min m n + 1 from by omega,
        show m + 1 - (n + 1) = m - n from by omega,
        show n + 1 - (m + 1) = n - m from by omega,
        show k + (min m n + 1) = k + 1 + min m n from by omega,
        List.replicate_succ]
      simp

/-! # General facts about `MemSeriesIterator.Next` -/

theorem advanceDense_err_shape (ts ds ps : MemSeriesValuesIterator) (e : String)
    (h : (advanceDense ts ds ps).2.2.2 = Except.error e) : iterErrShape e := by
  simp only [advanceDense] at h
  repeat' split at h
  all_goals try simp only [Except.error.injEq] at h
  all_goals
    first
      | simp at h
      | (subst h
         first
           | exact Or.inl ⟨_, rfl⟩
           | exact Or.inr (Or.inl ⟨_, _, rfl⟩)
           | exact Or.inr (Or.inr ⟨_, _, _, by assumption, rfl⟩))

theorem Next_at_zero (it : MemSeriesIterator) (h : it.numSamples = 0) :
    it.Next = (false, it) := by
  simp [MemSeriesIterator.Next, h]

theorem Next_true_inv (it : MemSeriesIterator) (h : (it.Next).1 = true) :
    ((it.Next).2).err = it.err ∧ it.numSamples = ((it.Next).2).numSamples + 1 := by
  by_cases h0 : it.numSamples = 0
  · rw [Next_at_zero it h0] at h
    simp at h
  · rcases hd : advanceDense it.timestampsIterator it.durationsIterator it.periodsIterator
      with ⟨ts', ds', ps', r?⟩
    cases r? with
    | error e => simp [MemSeriesIterator.Next, h0, hd] at h
    | ok r =>
      rcases ht : advanceTreeNode r it.tree.Roots with ⟨root', e?⟩
      cases e? with
      | some e => simp [MemSeriesIterator.Next, h0, hd, ht] at h
      | none =>
        simp only [MemSeriesIterator.Next, h0, hd, ht, if_neg h0]
        refine ⟨rfl, ?_⟩
        show it.numSamples = it.numSamples - 1 + 1
        omega

theorem Next_false_numSamples (it : MemSeriesIterator) (h : (it.Next).1 = false) :
    ((it.Next).2).numSamples = it.numSamples := by
  by_cases h0 : it.numSamples = 0
  · rw [Next_at_zero it h0]
  · rcases hd : advanceDense it.timestampsIterator it.durationsIterator it.periodsIterator
      with ⟨ts', ds', ps', r?⟩
    cases r? with
    | error e => simp [MemSeriesIterator.Next, h0, hd]
    | ok r =>
      rcases ht : advanceTreeNode r it.tree.Roots with ⟨root', e?⟩
      cases e? with
      | some e => simp [MemSeriesIterator.Next, h0, hd, ht]
      | none => simp [MemSeriesIterator.Next, h0, hd, ht] at h

theorem Next_err_change (it : MemSeriesIterator)
    (h : ((it.Next).2).err ≠ it.err) :
    (it.Next).1 = false ∧ ((it.Next).2).numSamples = it.numSamples ∧
      ∃ e, ((it.Next).2).err = some e ∧ iterErrShape e := by
  by_cases h0 : it.numSamples = 0
  · rw [Next_at_zero it h0] at h
    simp at h
  · rcases hd : advanceDense it.timestampsIterator it.durationsIterator it.periodsIterator
      with ⟨ts', ds', ps', r?⟩
    cases r? with
    | error e =>
      refine ⟨by simp [MemSeriesIterator.Next, h0, hd], by simp [MemSeriesIterator.Next, h0, hd], e, by simp [MemSeriesIterator.Next, h0, hd], ?_⟩
      exact advanceDense_err_shape _ _ _ e (by rw [hd])
    | ok r =>
      rcases ht : advanceTreeNode r it.tree.Roots with ⟨root', e?⟩
      cases e? with
      | some e =>
        refine ⟨by simp [MemSeriesIterator.Next, h0, hd, ht], by simp [MemSeriesIterator.Next, h0, hd, ht], e, by simp [MemSeriesIterator.Next, h0, hd, ht], ?_⟩
        exact advanceTreeNode_err_shape r it.tree.Roots e (by rw [ht])
      | none =>
        exfalso
        apply h
        simp [MemSeriesIterator.Next, h0, hd, ht]

theorem Next_ignores_err (it : MemSeriesIterator) (e : Option String) :
    ((it.setErr e).Next).1 = (it.Next).1 := by
  by_cases h0 : it.numSamples = 0
  · rw [Next_at_zero it h0, Next_at_zero (it.setErr e) h0]
  · rcases hd : advanceDense it.timestampsIterator it.durationsIterator it.periodsIterator
      with ⟨ts', ds', ps', r?⟩
    have hd' : advanceDense (it.setErr e).timestampsIterator (it.setErr e).durationsIterator
        (it.setErr e).periodsIterator = (ts', ds', ps', r?) := hd
    cases r? with
    | error m => simp [MemSeriesIterator.Next, h0, hd, hd', MemSeriesIterator.setErr]
    | ok r =>
      rcases ht : advanceTreeNode r it.tree.Roots with ⟨root', e?⟩
      cases e? with
      | some m => simp [MemSeriesIterator.Next, h0, hd, hd', ht, MemSeriesIterator.setErr]
      | none => simp [MemSeriesIterator.Next, h0, hd, hd', ht, MemSeriesIterator.setErr]

/-! # Branch characterizations of `advanceDense` -/

theorem cleanB_dest (vi : MemSeriesValuesIterator) (h : cleanB vi = true) :
    (vi.next).1 = true ∧ ((vi.next).2).Err = none := by
  simp only [cleanB, Bool.and_eq_true, Option.isNone_iff_eq_none] at h
  exact h

theorem advanceDense_end_ts (ts ds ps : MemSeriesValuesIterator)
    (h : (ts.next).1 = false) :
    advanceDense ts ds ps = ((ts.next).2, ds, ps, .error (endMsg "timestamps")) := by
  rcases h1 : ts.next with ⟨ok1, ts'⟩
  rw [h1] at h
  simp only at h
  subst h
  simp [advanceDense, h1]

theorem advanceDense_end_ds (ts ds ps : MemSeriesValuesIterator)
    (hts : cleanB ts = true) (h : (ds.next).1 = false) :
    advanceDense ts ds ps = ((ts.next).2, (ds.next).2, ps, .error (endMsg "durations")) := by
  obtain ⟨hok, hE⟩ := cleanB_dest ts hts
  rcases h1 : ts.next with ⟨ok1, ts'⟩
  rw [h1] at hok hE
  simp only at hok hE
  subst hok
  rcases h2 : ds.next with ⟨ok2, ds'⟩
  rw [h2] at h
  simp only at h
  subst h
  simp [advanceDense, h1, h2, hE]

theorem advanceDense_end_ps (ts ds ps : MemSeriesValuesIterator)
    (hts : cleanB ts = true) (hds : cleanB ds = true) (h : (ps.next).1 = false) :
    advanceDense ts ds ps =
      ((ts.next).2, (ds.next).2, (ps.next).2, .error (endMsg "periods")) := by
  obtain ⟨hok1, hE1⟩ := cleanB_dest ts hts
  obtain ⟨hok2, hE2⟩ := cleanB_dest ds hds
  rcases h1 : ts.next with ⟨ok1, ts'⟩
  rw [h1] at hok1 hE1
  simp only at hok1 hE1
  subst hok1
  rcases h2 : ds.next with ⟨ok2, ds'⟩
  rw [h2] at hok2 hE2
  simp only at hok2 hE2
  subst hok2
  rcases h3 : ps.next with ⟨ok3, ps'⟩
  rw [h3] at h
  simp only at h
  subst h
  simp [advanceDense, h1, h2, h3, hE1, hE2]

theorem advanceDense_wrong_duration (ts ds ps : MemSeriesValuesIterator)
    (hts : cleanB ts = true) (hds : cleanB ds = true) (hps : cleanB ps = true)
    (h : nextRead ds ≠ nextRead ts) :
    advanceDense ts ds ps = ((ts.next).2, (ds.next).2, (ps.next).2,
      .error (wrongMsg "duration" (nextRead ts) (nextRead ds))) := by
  obtain ⟨hok1, hE1⟩ := cleanB_dest ts hts
  obtain ⟨hok2, hE2⟩ := cleanB_dest ds hds
  obtain ⟨hok3, hE3⟩ := cleanB_dest ps hps
  rcases h1 : ts.next with ⟨ok1, ts'⟩
  rw [h1] at hok1 hE1
  simp only at hok1 hE1
  subst hok1
  rcases h2 : ds.next with ⟨ok2, ds'⟩
  rw [h2] at hok2 hE2
  simp only at hok2 hE2
  subst hok2
  rcases h3 : ps.next with ⟨ok3, ps'⟩
  rw [h3] at hok3 hE3
  simp only at hok3 hE3
  subst hok3
  simp only [nextRead, h1, h2, h3] at h ⊢
  simp [advanceDense, h1, h2, h3, hE1, hE2, hE3, h]

theorem advanceDense_wrong_periods (ts ds ps : MemSeriesValuesIterator)
    (hts : cleanB ts = true) (hds : cleanB ds = true)
    (hdr : nextRead ds = nextRead ts)
    (hps : cleanB ps = true) (h : nextRead ps ≠ nextRead ts) :
    advanceDense ts ds ps = ((ts.next).2, (ds.next).2, (ps.next).2,
      .error (wrongMsg "periods" (nextRead ts) (nextRead ps))) := by
  obtain ⟨hok1, hE1⟩ := cleanB_dest ts hts
  obtain ⟨hok2, hE2⟩ := cleanB_dest ds hds
  obtain ⟨hok3, hE3⟩ := cleanB_dest ps hps
  rcases h1 : ts.next with ⟨ok1, ts'⟩
  rw [h1] at hok1 hE1
  simp only at hok1 hE1
  subst hok1
  rcases h2 : ds.next with ⟨ok2, ds'⟩
  rw [h2] at hok2 hE2
  simp only at hok2 hE2
  subst hok2
  rcases h3 : ps.next with ⟨ok3, ps'⟩
  rw [h3] at hok3 hE3
  simp only at hok3 hE3
  subst hok3
  simp only [nextRead, h1, h2, h3] at hdr h ⊢
  simp [advanceDense, h1, h2, h3, hE1, hE2, hE3, hdr, h]

theorem advanceDense_all_good (ts ds ps : MemSeriesValuesIterator)
    (hts : cleanB ts = true) (hds : cleanB ds = true)
    (hdr : nextRead ds = nextRead ts)
    (hps : cleanB ps = true) (hpr : nextRead ps = nextRead ts) :
    advanceDense ts ds ps =
      ((ts.next).2, (ds.next).2, (ps.next).2, .ok (nextRead ts)) := by
  obtain ⟨hok1, hE1⟩ := cleanB_dest ts hts
  obtain ⟨hok2, hE2⟩ := cleanB_dest ds hds
  obtain ⟨hok3, hE3⟩ := cleanB_dest ps hps
  rcases h1 : ts.next with ⟨ok1, ts'⟩
  rw [h1] at hok1 hE1
  simp only at hok1 hE1
  subst hok1
  rcases h2 : ds.next with ⟨ok2, ds'⟩
  rw [h2] at hok2 hE2
  simp only at hok2 hE2
  subst hok2
  rcases h3 : ps.next with ⟨ok3, ps'⟩
  rw [h3] at hok3 hE3
  simp only at hok3 hE3
  subst hok3
  simp only [nextRead, h1, h2, h3] at hdr hpr ⊢
  simp [advanceDense, h1, h2, h3, hE1, hE2, hE3, hdr, hpr]

/-! # Claim theorems for the iterator -/

/-- C1: for every `MemSeriesIterator` built over a series of `n` samples
whose column iterators (dense and tree-valued, any tree shape `sh`, any
prior counter offset `k`) all hold exactly `n` values, `Next()` returns
true exactly `n` times and false on every later call; moreover every
successful `Next()` decrements the remaining-sample counter by one, and
`Next()` returns false immediately once the counter is zero. -/

theorem C1_next_true_exactly_numSamples :
    (∀ (k n : Nat) (sh : TreeShape) (m : Nat),
      (runNext m (mkGoodState k n sh)).1 =
        List.replicate (min m n) true ++ List.replicate (m - n) false) ∧
    (∀ it : MemSeriesIterator, (it.Next).1 = true →
      it.numSamples = ((it.Next).2).numSamples + 1) ∧
    (∀ it : MemSeriesIterator, it.numSamples = 0 → it.Next = (false, it)) := by
  refine ⟨?_, ?_, ?_⟩
  · intro k n sh m
    rw [runNext_good]
  · intro it h
    exact (Next_true_inv it h).2
  · intro it h
    exact Next_at_zero it h

theorem C1_witness :
    (runNext 4 (mkGoodState 0 2 shape0)).1 = [true, true, false, false] ∧
    (mkGoodState 0 2 shape0).numSamples =
      (((mkGoodState 0 2 shape0).Next).2).numSamples + 1 ∧
    (mkGoodState 0 0 shape0).Next = (false, mkGoodState 0 0 shape0) := by
  refine ⟨?_, ?_, ?_⟩
  · rw [C1_next_true_exactly_numSamples.1 0 2 shape0 4]
    rfl
  · exact C1_next_true_exactly_numSamples.2.1 (mkGoodState 0 2 shape0) (by decide)
  · exact C1_next_true_exactly_numSamples.2.2 (mkGoodState 0 0 shape0) rfl

/-- C2: on a `Next()` call whose three dense iterators all advance
cleanly, a `Read()` mismatch of the durations or periods iterator
against the timestamps counter makes `Next()` return false with the
`wrong iteration for duration`/`periods` error; and when the dense
columns are in lockstep but some tree value iterator (all of which
advance cleanly) lands on a different `Read()`, `Next()` returns false
and `Err()` is a `wrong iteration for ...` error naming an offending
flat or cumulative value column. -/

theorem C2_lockstep_wrong_iteration (it : MemSeriesIterator)
    (h0 : it.numSamples ≠ 0)
    (hts : cleanB it.timestampsIterator = true)
    (hds : cleanB it.durationsIterator = true)
    (hps : cleanB it.periodsIterator = true) :
    (nextRead it.durationsIterator ≠ nextRead it.timestampsIterator →
      (it.Next).1 = false ∧ ((it.Next).2).Err =
        some (wrongMsg "duration" (nextRead it.timestampsIterator)
          (nextRead it.durationsIterator))) ∧
    (nextRead it.durationsIterator = nextRead it.timestampsIterator →
      nextRead it.periodsIterator ≠ nextRead it.timestampsIterator →
      (it.Next).1 = false ∧ ((it.Next).2).Err =
        some (wrongMsg "periods" (nextRead it.timestampsIterator)
          (nextRead it.periodsIterator))) ∧
    (nextRead it.durationsIterator = nextRead it.timestampsIterator →
      nextRead it.periodsIterator = nextRead it.timestampsIterator →
      treeAllClean it.tree.Roots = true →
      treeAnyMismatch (nextRead it.timestampsIterator) it.tree.Roots = true →
      (it.Next).1 = false ∧ ∃ e, ((it.Next).2).Err = some e ∧
        wrongShape (nextRead it.timestampsIterator) e) := by
  refine ⟨?_, ?_, ?_⟩
  · intro hmm
    have hd := advanceDense_wrong_duration _ _ _ hts hds hps hmm
    constructor <;>
      simp [MemSeriesIterator.Next, h0, hd, MemSeriesIterator.Err]
  · intro hdr hmm
    have hd := advanceDense_wrong_periods _ _ _ hts hds hdr hps hmm
    constructor <;>
      simp [MemSeriesIterator.Next, h0, hd, MemSeriesIterator.Err]
  · intro hdr hpr hclean hmis
    have hd := advanceDense_all_good _ _ _ hts hds hdr hps hpr
    have hcl : ∀ p ∈ treeNodeIters it.tree.Roots, cleanB p.2 = true := by
      intro p hp
      exact List.all_eq_true.mp hclean p hp
    rcases advanceTreeNode_clean_shape (nextRead it.timestampsIterator)
        it.tree.Roots hcl with hnone | ⟨e, hsome, hw⟩
    · exfalso
      obtain ⟨p, hp, hne⟩ := List.any_eq_true.mp hmis
      have hg := advanceTreeNode_none_good _ _ hnone p hp
      simp only [goodB, Bool.and_eq_true, beq_iff_eq] at hg
      simp [hg.2] at hne
    · rcases htn : advanceTreeNode (nextRead it.timestampsIterator) it.tree.Roots
        with ⟨root', e?⟩
      rw [htn] at hsome
      simp only at hsome
      subst hsome
      refine ⟨?_, e, ?_, hw⟩ <;>
        simp [MemSeriesIterator.Next, h0, hd, htn, MemSeriesIterator.Err]

theorem C2_witness :
    (desyncState.Next).1 = false ∧
      ((desyncState.Next).2).Err = some (wrongMsg "duration" 1 2) :=
  (C2_lockstep_wrong_iteration desyncState (by decide) (by decide) (by decide)
    (by decide)).1 (by decide)

/-- C6: if, before the `numSamples` samples are consumed, the
timestamps, durations or periods iterator fails to advance (in a state
where the iterators before it in program order advance cleanly), or —
with the dense columns advancing in lockstep — some flat or cumulative
value iterator of the tree fails to advance while every tree iterator
either advances cleanly or ends, then `Next()` returns false and `Err()`
is the `unexpected end of ... iterator` error naming the column that
ended early. -/

theorem C6_unexpected_end_errors (it : MemSeriesIterator)
    (h0 : it.numSamples ≠ 0) :
    (advancesB it.timestampsIterator = false →
      (it.Next).1 = false ∧ ((it.Next).2).Err = some (endMsg "timestamps")) ∧
    (cleanB it.timestampsIterator = true →
      advancesB it.durationsIterator = false →
      (it.Next).1 = false ∧ ((it.Next).2).Err = some (endMsg "durations")) ∧
    (cleanB it.timestampsIterator = true →
      cleanB it.durationsIterator = true →
      advancesB it.periodsIterator = false →
      (it.Next).1 = false ∧ ((it.Next).2).Err = some (endMsg "periods")) ∧
    (cleanB it.timestampsIterator = true →
      cleanB it.durationsIterator = true →
      cleanB it.periodsIterator = true →
      nextRead it.durationsIterator = nextRead it.timestampsIterator →
      nextRead it.periodsIterator = nextRead it.timestampsIterator →
      treeAllGoodOrEnded (nextRead it.timestampsIterator) it.tree.Roots = true →
      treeAnyEnded it.tree.Roots = true →
      (it.Next).1 = false ∧ ∃ e, ((it.Next).2).Err = some e ∧ endShape e) := by
  refine ⟨?_, ?_, ?_, ?_⟩
  · intro h
    have hd := advanceDense_end_ts it.timestampsIterator it.durationsIterator
      it.periodsIterator h
    constructor <;>
      simp [MemSeriesIterator.Next, h0, hd, MemSeriesIterator.Err]
  · intro hts h
    have hd := advanceDense_end_ds it.timestampsIterator it.durationsIterator
      it.periodsIterator hts h
    constructor <;>
      simp [MemSeriesIterator.Next, h0, hd, MemSeriesIterator.Err]
  · intro hts hds h
    have hd := advanceDense_end_ps it.timestampsIterator it.durationsIterator
      it.periodsIterator hts hds h
    constructor <;>
      simp [MemSeriesIterator.Next, h0, hd, MemSeriesIterator.Err]
  · intro hts hds hps hdr hpr hgoe hend
    have hd := advanceDense_all_good _ _ _ hts hds hdr hps hpr
    have hcl : ∀ p ∈ treeNodeIters it.tree.Roots,
        (goodB (nextRead it.timestampsIterator) p.2 || endedB p.2) = true := by
      intro p hp
      exact List.all_eq_true.mp hgoe p hp
    rcases advanceTreeNode_goodOrEnd_shape (nextRead it.timestampsIterator)
        it.tree.Roots hcl with hnone | ⟨e, hsome, hw⟩
    · exfalso
      obtain ⟨p, hp, hne⟩ := List.any_eq_true.mp hend
      have hg := advanceTreeNode_none_good _ _ hnone p hp
      simp only [goodB, cleanB, endedB, Bool.and_eq_true, beq_iff_eq,
        Bool.not_eq_true'] at hg hne
      rw [hne] at hg
      simp at hg
    · rcases htn : advanceTreeNode (nextRead it.timestampsIterator) it.tree.Roots
        with ⟨root', e?⟩
      rw [htn] at hsome
      simp only at hsome
      subst hsome
      refine ⟨?_, e, ?_, hw⟩ <;>
        simp [MemSeriesIterator.Next, h0, hd, htn, MemSeriesIterator.Err]

theorem C6_witness :
    (endedState.Next).1 = false ∧
      ∃ e, ((endedState.Next).2).Err = some e ∧ endShape e :=
  (C6_unexpected_end_errors endedState (by decide)).2.2.2 (by decide) (by decide)
    (by decide) (by decide) (by decide) (by decide) (by decide)

/-- C7 counterexample: after the `wrong iteration for duration` lockstep
failure on the first call (which records the error and returns false),
the very next `Next()` call on `desyncState` returns true again — the
failure is not fatal for the iterator, refuting the claim that every
subsequent call returns false. -/

theorem C7_counterexample :
    (desyncState.Next).1 = false ∧
      ((desyncState.Next).2).Err = some (wrongMsg "duration" 1 2) ∧
      ((((desyncState.Next).2).Next).1 = true) := by
  refine ⟨by decide, by decide, by decide⟩

/-- C7 amended: a failed lockstep check records its error (surfaced by
`Err()`) and that call returns false, but the failure is not latched:
`Next()` never consults the stored error, a later call may return true
leaving the recorded error in place, and a later failing check
overwrites it, so `Err()` reports the most recently recorded error
rather than the first. -/

theorem C7_desync_not_fatal :
    (∀ (it : MemSeriesIterator) (e : Option String),
      ((it.setErr e).Next).1 = (it.Next).1) ∧
    (∀ it : MemSeriesIterator, (it.Next).1 = true →
      ((it.Next).2).err = it.err) ∧
    (∀ it : MemSeriesIterator, ((it.Next).2).err ≠ it.err →
      (it.Next).1 = false ∧ ∃ e, ((it.Next).2).err = some e ∧ iterErrShape e) := by
  refine ⟨Next_ignores_err, ?_, ?_⟩
  · intro it h
    exact (Next_true_inv it h).1
  · intro it h
    obtain ⟨h1, _, h3⟩ := Next_err_change it h
    exact ⟨h1, h3⟩

theorem C7_witness :
    (((desyncState.setErr (some "boom")).Next).1 = (desyncState.Next).1) ∧
    ((((desyncState.Next).2).Next).2).err = ((desyncState.Next).2).err ∧
    ((desyncState.Next).1 = false ∧
      ∃ e, ((desyncState.Next).2).err = some e ∧ iterErrShape e) :=
  ⟨C7_desync_not_fatal.1 desyncState (some "boom"),
   C7_desync_not_fatal.2.1 ((desyncState.Next).2) (by decide),
   C7_desync_not_fatal.2.2 desyncState (by decide)⟩

/-- C10: (i) when the remaining-sample counter is zero, `Next()` returns
false leaving the state untouched, and in particular with no recorded
error `Err()` returns nil; (ii) an iterator over complete columns never
records an error at any point of its run, so `Err()` is nil when the run
ends by exhaustion; (iii) an error is recorded only by a call that
returns false because a column ended early, reported an error, or failed
a `Read()` lockstep check, and such a call leaves the counter
unchanged. -/

theorem C10_exhausted_err_nil :
    (∀ it : MemSeriesIterator, it.numSamples = 0 → it.err = none →
      it.Next = (false, it) ∧ ((it.Next).2).Err = none) ∧
    (∀ (k n m : Nat) (sh : TreeShape),
      ((runNext m (mkGoodState k n sh)).2).Err = none) ∧
    (∀ it : MemSeriesIterator, ((it.Next).2).err ≠ it.err →
      (it.Next).1 = false ∧ ((it.Next).2).numSamples = it.numSamples ∧
        ∃ e, ((it.Next).2).err = some e ∧ iterErrShape e) := by
  refine ⟨?_, ?_, ?_⟩
  · intro it h he
    refine ⟨Next_at_zero it h, ?_⟩
    rw [Next_at_zero it h]
    exact he
  · intro k n m sh
    rw [runNext_good]
    rfl
  · exact Next_err_change

theorem C10_witness :
    ((mkGoodState 0 0 shape0).Next = (false, mkGoodState 0 0 shape0) ∧
      (((mkGoodState 0 0 shape0).Next).2).Err = none) ∧
    ((runNext 3 (mkGoodState 0 2 shape0)).2).Err = none ∧
    ((endedState.Next).1 = false ∧
      ((endedState.Next).2).numSamples = endedState.numSamples ∧
      ∃ e, ((endedState.Next).2).err = some e ∧ iterErrShape e) :=
  ⟨C10_exhausted_err_nil.1 (mkGoodState 0 0 shape0) rfl rfl,
   C10_exhausted_err_nil.2.1 0 2 3 shape0,
   C10_exhausted_err_nil.2.2 endedState (by decide)⟩

theorem getIndexRangeLoop_spec (vals : List Int) (mint maxt : Int) (n : Nat) :
    ∀ (k : Nat) (c : IterStep), c.err = none → ∀ s e i : Nat,
      i + vals.length ≤ n →
      getIndexRangeLoop ⟨chunkSteps k vals, c⟩ n mint maxt s e i =
        (s + rangeStart mint maxt vals, e + rangeEnd maxt vals, none) := by
  induction vals with
  | nil =>
    intro k c hc s e i hn
    rw [getIndexRangeLoop]
    simp [chunkSteps, MemSeriesValuesIterator.next, MemSeriesValuesIterator.Err,
      hc, rangeStart, rangeEnd]
  | cons v vs ih =>
    intro k c hc s e i hn
    have hne : i ≠ n := by
      simp only [List.length_cons] at hn
      omega
    rw [getIndexRangeLoop]
    simp only [chunkSteps, MemSeriesValuesIterator.next, MemSeriesValuesIterator.At,
      MemSeriesValuesIterator.Err, hne, if_false, ite_false, reduceIte]
    by_cases hm : v ≤ maxt
    · rw [if_pos hm]
      rw [ih (k + 1) ⟨true, v, none, k + 1⟩ rfl _ (e + 1) (i + 1)
        (by simp only [List.length_cons] at hn; omega)]
      simp only [rangeStart, rangeEnd, if_pos hm]
      by_cases hv : v < mint <;> simp [hv] <;> omega
    · rw [if_neg hm]
      simp only [rangeStart, rangeEnd, if_neg hm]
      by_cases hv : v < mint <;> simp [hv]

theorem rangeStart_zero_of_ge (mint maxt : Int) (vals : List Int)
    (h : ∀ x ∈ vals, mint ≤ x) : rangeStart mint maxt vals = 0 := by
  induction vals with
  | nil => rfl
  | cons v vs ih =>
    have hv : mint ≤ v := h v (List.mem_cons_self v vs)
    simp only [rangeStart, if_neg (not_lt.mpr hv), Nat.zero_add]
    by_cases hm : v ≤ maxt
    · rw [if_pos hm, ih (fun x hx => h x (List.mem_cons_of_mem v hx))]
    · rw [if_neg hm]

theorem rangeBounds_iff (mint maxt : Int) (vals : List Int)
    (hs : List.Pairwise (· < ·) vals) (i : Nat) (h : i < vals.length) :
    (rangeStart mint maxt vals ≤ i ∧ i < rangeEnd maxt vals) ↔
      (mint ≤ vals.get ⟨i, h⟩ ∧ vals.get ⟨i, h⟩ ≤ maxt) := by
  induction vals generalizing i with
  | nil => simp at h
  | cons v vs ih =>
    obtain ⟨hall, hs'⟩ := List.pairwise_cons.mp hs
    cases i with
    | zero =>
      simp only [List.get]
      by_cases hm : v ≤ maxt
      · by_cases hv : v < mint
        · simp [rangeStart, rangeEnd, hv, hm, not_le.mpr hv]
        · have hz : rangeStart mint maxt vs = 0 :=
            rangeStart_zero_of_ge mint maxt vs
              (fun x hx => le_of_lt (lt_of_le_of_lt (not_lt.mp hv) (hall x hx)))
          simp [rangeStart, rangeEnd, hv, hm, hz, not_lt.mp hv]
      · simp [rangeStart, rangeEnd, hm]
    | succ j =>
      have hj : j < vs.length := by
        simp only [List.length_cons] at h
        omega
      have hget : (v :: vs).get ⟨j + 1, h⟩ = vs.get ⟨j, hj⟩ := rfl
      rw [hget]
      have hmem : vs.get ⟨j, hj⟩ ∈ vs := List.get_mem vs j hj
      by_cases hm : v ≤ maxt
      · by_cases hv : v < mint
        · have := ih hs' j hj
          simp only [rangeStart, rangeEnd, if_pos hm, if_pos hv] at *
          constructor
          · intro ⟨h1, h2⟩
            exact (ih hs' j hj).mp ⟨by omega, by omega⟩
          · intro hr
            obtain ⟨h1, h2⟩ := (ih hs' j hj).mpr hr
            exact ⟨by omega, by omega⟩
        · have hz : rangeStart mint maxt vs = 0 :=
            rangeStart_zero_of_ge mint maxt vs
              (fun x hx => le_of_lt (lt_of_le_of_lt (not_lt.mp hv) (hall x hx)))
          have hauto : mint ≤ vs.get ⟨j, hj⟩ :=
            le_of_lt (lt_of_le_of_lt (not_lt.mp hv) (hall _ hmem))
          have := ih hs' j hj
          rw [hz] at this
          simp only [rangeStart, rangeEnd, if_pos hm, if_neg hv, hz] at *
          constructor
          · intro ⟨_, h2⟩
            exact ⟨hauto, ((ih hs' j hj).mp ⟨by omega, by omega⟩).2⟩
          · intro hr
            obtain ⟨h1, h2⟩ := (ih hs' j hj).mpr hr
            exact ⟨by omega, by omega⟩
      · have hgt : maxt < vs.get ⟨j, hj⟩ := lt_trans (not_le.mp hm) (hall _ hmem)
        simp only [rangeStart, rangeEnd, if_neg hm]
        constructor
        · intro ⟨_, h2⟩
          omega
        · intro ⟨_, h2⟩
          exact absurd h2 (not_le.mpr hgt)

/-- C8: for a timestamps iterator yielding exactly `numSamples` strictly
increasing values, `getIndexRange` returns `(start, end)` with no error
such that the indices in `[start, end)` are precisely those whose
timestamp `t` satisfies `mint ≤ t` and `t ≤ maxt`. -/

theorem C8_getIndexRange_bounds (vals : List Int) (n : Nat) (mint maxt : Int)
    (hlen : vals.length = n) (hsorted : List.Pairwise (· < ·) vals) :
    getIndexRange (NewMultiChunkIterator [vals]) n mint maxt =
      (rangeStart mint maxt vals, rangeEnd maxt vals, none) ∧
    ∀ i (h : i < vals.length),
      (rangeStart mint maxt vals ≤ i ∧ i < rangeEnd maxt vals) ↔
        (mint ≤ vals.get ⟨i, h⟩ ∧ vals.get ⟨i, h⟩ ≤ maxt) := by
  constructor
  · have hfl : ([vals] : List (List Int)).flatten = vals := by simp
    rw [getIndexRange, NewMultiChunkIterator, hfl,
      getIndexRangeLoop_spec vals mint maxt n 0 ⟨true, 0, none, 0⟩ rfl 0 0 0
        (by omega)]
    simp
  · intro i h
    exact rangeBounds_iff mint maxt vals hsorted i h

theorem C8_witness :
    getIndexRange (NewMultiChunkIterator [[1, 3, 5, 7]]) 4 2 6 = (1, 3, none) ∧
      (2 ≤ ([1, 3, 5, 7] : List Int).get ⟨1, by decide⟩ ∧
        ([1, 3, 5, 7] : List Int).get ⟨1, by decide⟩ ≤ 6) := by
  have hc := C8_getIndexRange_bounds [1, 3, 5, 7] 4 2 6 rfl (by decide)
  constructor
  · rw [hc.1]
    rfl
  · exact (hc.2 1 (by decide)).mp (by decide)

theorem Next_root_lengths (it : MemSeriesIterator) :
    ((((it.Next).2).tree.Roots).flatValues.length =
        ((it.tree.Roots).flatValues).length) ∧
      ((((it.Next).2).tree.Roots).cumulativeValues.length =
        ((it.tree.Roots).cumulativeValues).length) := by
  by_cases h0 : it.numSamples = 0
  · rw [Next_at_zero it h0]
    exact ⟨rfl, rfl⟩
  · rcases hd : advanceDense it.timestampsIterator it.durationsIterator it.periodsIterator
      with ⟨ts', ds', ps', r?⟩
    cases r? with
    | error e =>
      simp [MemSeriesIterator.Next, h0, hd]
    | ok r =>
      rcases ht : advanceTreeNode r it.tree.Roots with ⟨root', e?⟩
      have hl := advanceTreeNode_fst_lengths r it.tree.Roots
      rw [ht] at hl
      cases e? with
      | some e => simpa [MemSeriesIterator.Next, h0, hd, ht] using hl
      | none => simpa [MemSeriesIterator.Next, h0, hd, ht] using hl

theorem runNext_root_lengths (m : Nat) (it : MemSeriesIterator) :
    ((((runNext m it).2).tree.Roots).flatValues.length =
        ((it.tree.Roots).flatValues).length) ∧
      ((((runNext m it).2).tree.Roots).cumulativeValues.length =
        ((it.tree.Roots).cumulativeValues).length) := by
  induction m generalizing it with
  | zero => exact ⟨rfl, rfl⟩
  | succ m ih =>
    rcases hn : it.Next with ⟨b, it'⟩
    have h1 := Next_root_lengths it
    rw [hn] at h1
    have h2 := ih it'
    simp only [runNext, hn]
    exact ⟨h2.1.trans h1.1, h2.2.trans h1.2⟩

/-- C9: for every `MemSeries`, at every point of the iteration the root
node of the iterator tree built by `Iterator()` has no flat value
iterators and exactly one cumulative value iterator, so its
`FlatValues()` is nil and its `CumulativeValues()` has exactly one
entry. -/

theorem C9_root_values (s : MemSeries) (m : Nat) :
    ((((runNext m s.Iterator).2).tree.Roots).flatValues = [] ∧
      (((runNext m s.Iterator).2).tree.Roots).FlatValues = none) ∧
    ∃ x, (((runNext m s.Iterator).2).tree.Roots).CumulativeValues = some [x] := by
  obtain ⟨h1, h2⟩ := runNext_root_lengths m s.Iterator
  have hf0 : ((s.Iterator.tree.Roots).flatValues).length = 0 := rfl
  have hc1 : ((s.Iterator.tree.Roots).cumulativeValues).length = 1 := rfl
  rw [hf0] at h1
  rw [hc1] at h2
  have hfe : (((runNext m s.Iterator).2).tree.Roots).flatValues = [] :=
    List.length_eq_zero.mp h1
  obtain ⟨x, hx⟩ := List.length_eq_one.mp h2
  refine ⟨⟨hfe, ?_⟩, ?_⟩
  · rw [MemSeriesIteratorTreeNode.FlatValues, hfe]
    rfl
  · refine ⟨⟨x.Values.At, x.Label, x.NumLabel, x.NumUnit⟩, ?_⟩
    rw [MemSeriesIteratorTreeNode.CumulativeValues, hx]
    rfl

/-! # Column-write lemmas -/

theorem getCol_appendCol (m : List (ProfileTreeValueNodeKey × List Int))
    (k' : ProfileTreeValueNodeKey) (v : Int) (k : ProfileTreeValueNodeKey) :
    getCol (appendCol m k' v) k =
      if k' = k then getCol m k ++ [v] else getCol m k := by
  induction m with
  | nil =>
    by_cases h : k' = k <;> simp [appendCol, getCol, assocFind, h]
  | cons p rest ih =>
    rcases p with ⟨k2, vs⟩
    by_cases h2 : k2 = k'
    · subst h2
      by_cases h : k2 = k <;> simp [appendCol, getCol, assocFind, h]
    · simp only [appendCol, if_neg h2]
      by_cases h : k2 = k
      · subst h
        have hne : k' ≠ k2 := fun hh => h2 hh.symm
        simp [getCol, assocFind, if_neg hne]
      · simp only [getCol, assocFind, if_neg h]
        exact ih

theorem getCol_applyWrites (ws : List (ProfileTreeValueNodeKey × Int))
    (m : List (ProfileTreeValueNodeKey × List Int)) (k : ProfileTreeValueNodeKey) :
    getCol (applyWrites m ws) k =
      getCol m k ++ ws.filterMap (fun q => if q.1 = k then some q.2 else none) := by
  induction ws generalizing m with
  | nil => simp [applyWrites]
  | cons q rest ih =>
    rcases q with ⟨k', v⟩
    simp only [applyWrites]
    rw [ih, getCol_appendCol]
    by_cases h : k' = k <;> simp [h]

theorem nodupB_iff {α : Type} [DecidableEq α] (l : List α) :
    nodupB l = true ↔ l.Nodup := by
  induction l with
  | nil => simp [nodupB]
  | cons x xs ih => simp [nodupB, ih, List.nodup_cons]

theorem nodeOwnWrites_chain (useCum : Bool) (path : List Nat)
    (n : ProfileTreeNode) :
    ∀ q ∈ nodeOwnWrites useCum path n, q.1.location = n.loc :: path := by
  match n with
  | .mk loc flat ch =>
    intro q hq
    simp only [nodeOwnWrites] at hq
    by_cases hf : flat.isEmpty
    · rw [if_pos hf] at hq
      cases useCum with
      | false => simp at hq
      | true =>
        simp only [if_true] at hq
        simp only [List.mem_singleton] at hq
        subst hq
        rfl
    · rw [if_neg hf] at hq
      obtain ⟨p, hp, rfl⟩ := List.mem_map.mp hq
      rfl

mutual

theorem treeWrites_chain (useCum : Bool) (path : List Nat) (n : ProfileTreeNode) :
    ∀ q ∈ treeWrites useCum path n, ∃ σ, q.1.location = σ ++ (n.loc :: path) := by
  match n with
  | .mk loc flat ch =>
    intro q hq
    simp only [treeWrites, List.mem_append] at hq
    rcases hq with hq | hq
    · exact ⟨[], by simpa [ProfileTreeNode.loc] using
        nodeOwnWrites_chain useCum path _ q hq⟩
    · obtain ⟨c, _, σ, hσ⟩ := treeWritesChildren_chain useCum (loc :: path) ch q hq
      exact ⟨σ ++ [c.loc], by rw [hσ]; simp [ProfileTreeNode.loc]⟩

theorem treeWritesChildren_chain (useCum : Bool) (path : List Nat)
    (cs : List ProfileTreeNode) :
    ∀ q ∈ treeWritesChildren useCum path cs,
      ∃ c ∈ cs, ∃ σ, q.1.location = σ ++ (c.loc :: path) := by
  match cs with
  | [] => intro q hq; simp [treeWritesChildren] at hq
  | c :: rest =>
    intro q hq
    simp only [treeWritesChildren, List.mem_append] at hq
    rcases hq with hq | hq
    · exact ⟨c, List.mem_cons_self c rest, treeWrites_chain useCum path c q hq⟩
    · obtain ⟨c', hc', hσ⟩ := treeWritesChildren_chain useCum path rest q hq
      exact ⟨c', List.mem_cons_of_mem c hc', hσ⟩

end

theorem nodeOwnWrites_keys_nodup (useCum : Bool) (path : List Nat)
    (loc : Nat) (flat : List (Int × Option LabelPayload))
    (ch : List ProfileTreeNode) (h : nodupB (flat.map Prod.snd) = true) :
    ((nodeOwnWrites useCum path (.mk loc flat ch)).map Prod.fst).Nodup := by
  simp only [nodeOwnWrites]
  by_cases hf : flat.isEmpty
  · rw [if_pos hf]
    cases useCum <;> simp
  · rw [if_neg hf, List.map_map]
    have : (Prod.fst ∘ fun p : Int × Option LabelPayload =>
        ((⟨loc :: path, p.2⟩ : ProfileTreeValueNodeKey), p.1)) =
        (fun o => (⟨loc :: path, o⟩ : ProfileTreeValueNodeKey)) ∘ Prod.snd := rfl
    rw [this, ← List.map_map]
    apply List.Nodup.map
    · intro a b hab
      injection hab
    · exact (nodupB_iff _).mp h

mutual

theorem treeWrites_keys_nodup (useCum : Bool) (path : List Nat)
    (n : ProfileTreeNode) (h : wfNode n = true) :
    ((treeWrites useCum path n).map Prod.fst).Nodup := by
  match n with
  | .mk loc flat ch =>
    simp only [wfNode, Bool.and_eq_true] at h
    obtain ⟨⟨hflat, hlocs⟩, hch⟩ := h
    simp only [treeWrites, List.map_append]
    rw [List.nodup_append]
    refine ⟨nodeOwnWrites_keys_nodup useCum path loc flat ch hflat,
      treeWritesChildren_keys_nodup useCum (loc :: path) ch hch hlocs, ?_⟩
    intro a ha hb
    obtain ⟨q, hq, rfl⟩ := List.mem_map.mp ha
    obtain ⟨q', hq', hqq⟩ := List.mem_map.mp hb
    have h1 : q.1.location = loc :: path := by
      simpa [ProfileTreeNode.loc] using nodeOwnWrites_chain useCum path _ q hq
    obtain ⟨c, _, σ, h2⟩ := treeWritesChildren_chain useCum (loc :: path) ch q' hq'
    have : q.1.location = q'.1.location := by rw [hqq]
    rw [h1, h2] at this
    have hlen := congrArg List.length this
    simp at hlen
    omega

theorem treeWritesChildren_keys_nodup (useCum : Bool) (path : List Nat)
    (cs : List ProfileTreeNode) (hwf : wfChildren cs = true)
    (hlocs : nodupB (cs.map ProfileTreeNode.loc) = true) :
    ((treeWritesChildren useCum path cs).map Prod.fst).Nodup := by
  match cs with
  | [] => simp [treeWritesChildren]
  | c :: rest =>
    simp only [wfChildren, Bool.and_eq_true] at hwf
    obtain ⟨hc, hrest⟩ := hwf
    simp only [List.map_cons, nodupB, Bool.and_eq_true, decide_eq_true_eq] at hlocs
    obtain ⟨hnotin, hlocs'⟩ := hlocs
    simp only [treeWritesChildren, List.map_append]
    rw [List.nodup_append]
    refine ⟨treeWrites_keys_nodup useCum path c hc,
      treeWritesChildren_keys_nodup useCum path rest hrest hlocs', ?_⟩
    intro a ha hb
    obtain ⟨q, hq, rfl⟩ := List.mem_map.mp ha
    obtain ⟨q', hq', hqq⟩ := List.mem_map.mp hb
    obtain ⟨σ, h1⟩ := treeWrites_chain useCum path c q hq
    obtain ⟨c', hc', σ', h2⟩ := treeWritesChildren_chain useCum path rest q' hq'
    have heq : σ ++ (c.loc :: path) = σ' ++ (c'.loc :: path) := by
      rw [← h1, ← hqq]
      exact h2
    have hll : (c.loc :: path).length = (c'.loc :: path).length := by simp
    obtain ⟨-, htail⟩ := List.append_inj' heq hll
    have : c.loc = c'.loc := by
      injection htail
    apply hnotin
    rw [this]
    exact List.mem_map.mpr ⟨c', hc', rfl⟩

end

theorem filterMap_key_nil {β : Type} (ws : List (ProfileTreeValueNodeKey × β))
    (k : ProfileTreeValueNodeKey) (h : k ∉ ws.map Prod.fst) :
    (ws.filterMap fun q => if q.1 = k then some q.2 else none) = [] := by
  induction ws with
  | nil => rfl
  | cons q rest ih =>
    simp only [List.map_cons, List.mem_cons, not_or] at h
    obtain ⟨h1, h2⟩ := h
    have hne : q.1 ≠ k := fun hh => h1 hh.symm
    simp only [List.filterMap_cons, if_neg hne]
    exact ih h2

theorem filterMap_key_le_one {β : Type} (ws : List (ProfileTreeValueNodeKey × β))
    (k : ProfileTreeValueNodeKey) (h : (ws.map Prod.fst).Nodup) :
    (ws.filterMap fun q => if q.1 = k then some q.2 else none).length ≤ 1 := by
  induction ws with
  | nil => simp
  | cons q rest ih =>
    simp only [List.map_cons, List.nodup_cons] at h
    obtain ⟨hnotin, hnd⟩ := h
    by_cases hk : q.1 = k
    · subst hk
      simp only [List.filterMap_cons, if_pos rfl]
      rw [filterMap_key_nil rest q.1 hnotin]
      simp
    · simp only [List.filterMap_cons, if_neg hk]
      exact ih hnd

/-- C4: inserting `s1 = (value 1, stack [2,1])` and
`s2 = (value 2, stack [4,1], labels forall "foo")` into an empty series at
sample index 0 yields flat columns `k2 = [1]` and `k4 = [2]` (and no
others), cumulative columns `k0 = [3]`, `k1 = [3]`, `k2 = [1]`,
`k4 = [2]` (and no others), and exactly one labels entry, under `k4`. -/

theorem C4_merge_two_stacks :
    getCol s0c4.flatValues k2 = [1] ∧ getCol s0c4.flatValues k4 = [2] ∧
    s0c4.flatValues.length = 2 ∧
    getCol s0c4.cumulativeValues k0 = [3] ∧
    getCol s0c4.cumulativeValues k1 = [3] ∧
    getCol s0c4.cumulativeValues k2 = [1] ∧
    getCol s0c4.cumulativeValues k4 = [2] ∧
    s0c4.cumulativeValues.length = 4 ∧
    s0c4.labels = [(k4, payload0)] := by
  decide

theorem insertAll_getCol_aux (ps : List ProfileTreeNode)
    (k : ProfileTreeValueNodeKey) :
    ∀ s : MemSeriesCols,
      getCol ((ps.foldl seriesTreeInsert s).flatValues) k =
        getCol s.flatValues k ++ (ps.map (flatTouched · k)).flatten ∧
      getCol ((ps.foldl seriesTreeInsert s).cumulativeValues) k =
        getCol s.cumulativeValues k ++ (ps.map (cumTouched · k)).flatten := by
  induction ps with
  | nil => intro s; simp
  | cons p rest ih =>
    intro s
    simp only [List.foldl_cons, List.map_cons, List.flatten_cons]
    obtain ⟨h1, h2⟩ := ih (seriesTreeInsert s p)
    rw [h1, h2]
    constructor
    · rw [show ((seriesTreeInsert s p).flatValues) =
        applyWrites s.flatValues (treeWrites false [] p) from rfl,
        getCol_applyWrites]
      simp [flatTouched, List.append_assoc]
    · rw [show ((seriesTreeInsert s p).cumulativeValues) =
        applyWrites s.cumulativeValues (treeWrites true [] p) from rfl,
        getCol_applyWrites]
      simp [cumTouched, List.append_assoc]

/-- C5: (i) merging a profile tree `p` into the series at the next
sample index appends to each value column exactly the values `p` writes
to its key — so a key touched by the append gains a value and an
untouched key's column is unchanged; (ii) in a well-formed profile tree
each key is written at most once per append; (iii) hence a key touched
at exactly the sample-index set `S` (the positions with non-empty
writes) holds exactly one value per touched index, and decoding its
column in order yields exactly the concatenated sequence of values
written to it. -/

theorem C5_sparse_columns :
    (∀ (s : MemSeriesCols) (p : ProfileTreeNode) (k : ProfileTreeValueNodeKey),
      getCol ((seriesTreeInsert s p).flatValues) k =
        getCol s.flatValues k ++ flatTouched p k ∧
      getCol ((seriesTreeInsert s p).cumulativeValues) k =
        getCol s.cumulativeValues k ++ cumTouched p k) ∧
    (∀ (p : ProfileTreeNode) (k : ProfileTreeValueNodeKey), wfNode p = true →
      (flatTouched p k).length ≤ 1 ∧ (cumTouched p k).length ≤ 1) ∧
    (∀ (ps : List ProfileTreeNode) (k : ProfileTreeValueNodeKey),
      getCol ((insertAll ps).flatValues) k = (ps.map (flatTouched · k)).flatten ∧
      getCol ((insertAll ps).cumulativeValues) k = (ps.map (cumTouched · k)).flatten) := by
  refine ⟨?_, ?_, ?_⟩
  · intro s p k
    exact ⟨getCol_applyWrites (treeWrites false [] p) s.flatValues k,
      getCol_applyWrites (treeWrites true [] p) s.cumulativeValues k⟩
  · intro p k h
    exact ⟨filterMap_key_le_one (treeWrites false [] p) k
        (treeWrites_keys_nodup false [] p h),
      filterMap_key_le_one (treeWrites true [] p) k
        (treeWrites_keys_nodup true [] p h)⟩
  · intro ps k
    have h := insertAll_getCol_aux ps k emptySeriesCols
    simpa [insertAll, emptySeriesCols, getCol, assocFind] using h

theorem C5_witness :
    ((flatTouched pt1 k2).length ≤ 1 ∧ (cumTouched pt1 k2).length ≤ 1) ∧
    getCol ((seriesTreeInsert s0c4 pt1).flatValues) k2 =
      getCol s0c4.flatValues k2 ++ flatTouched pt1 k2 :=
  ⟨C5_sparse_columns.2.1 pt1 k2 (by decide),
   (C5_sparse_columns.1 s0c4 pt1 k2).1⟩

set_option maxRecDepth 100000 in
/-- C3: `truncateChunksBefore(cutoff)` returns the number of leading
timestamp chunks whose maximum timestamp is strictly below the cutoff,
drops exactly that many chunks from the three dense columns, leaves
`maxTime` unchanged and recomputes `minTime` as the first remaining
timestamp (INT64_MIN when none remain); on the 500-sample series with
timestamps 1..500 and chunk capacity 120, `truncateChunksBefore(256)`
returns 2 leaving `minTime = 241`, `maxTime = 500`, and
`truncateChunksBefore(1000)` returns 5 leaving `minTime = INT64_MIN`,
`maxTime = 500`. -/

theorem C3_truncateChunksBefore :
    (∀ (s : TruncSeries) (mint : Int),
      (truncateChunksBefore s mint).1 =
        (s.timestamps.takeWhile fun c => decide (chunkMaxTime c < mint)).length ∧
      ((truncateChunksBefore s mint).2).maxTime = s.maxTime ∧
      ((truncateChunksBefore s mint).2).timestamps =
        s.timestamps.drop (truncateChunksBefore s mint).1 ∧
      ((truncateChunksBefore s mint).2).durations =
        s.durations.drop (truncateChunksBefore s mint).1 ∧
      ((truncateChunksBefore s mint).2).periods =
        s.periods.drop (truncateChunksBefore s mint).1 ∧
      ((truncateChunksBefore s mint).2).minTime =
        (if (truncateChunksBefore s mint).1 = 0 then s.minTime
         else ((((truncateChunksBefore s mint).2).timestamps.head?.bind
           List.head?)).getD int64Min)) ∧
    ((truncateChunksBefore series500 256).1 = 2 ∧
      ((truncateChunksBefore series500 256).2).minTime = 241 ∧
      ((truncateChunksBefore series500 256).2).maxTime = 500) ∧
    ((truncateChunksBefore series500 1000).1 = 5 ∧
      ((truncateChunksBefore series500 1000).2).minTime = int64Min ∧
      ((truncateChunksBefore series500 1000).2).maxTime = 500) := by
  refine ⟨?_, by decide, by decide⟩
  intro s mint
  by_cases hk :
      (s.timestamps.takeWhile fun c => decide (chunkMaxTime c < mint)).length = 0
  · simp [truncateChunksBefore, hk]
  · simp [truncateChunksBefore, hk]
